import Mathlib

/-!
Shallow embedding of the tiered memory store of
`2025-07-30_IMPL_memory_api_phase1.py` (classes `MemoryLevel`, `SourceType`,
`MemorySource`, `MemoryEntry`, `FileBasedMemoryStore`, `DistributedMemoryAPI`).

Modelling conventions:
- The file system is a pure `StoreState`: an association list of records keyed
  by `(level, id)` (one JSON file per record) and three association-list
  indices (`sessions.json`, `tags.json`, `sources.json`), each mapping a key
  string to the ordered list of entry ids that the Python code keeps as a
  JSON list.
- A parsed timestamp is a `Timestamp`: its comparison value `time` (seconds)
  and whether the ISO string carries a UTC offset (`aware = true` for the
  trailing `Z` that `save_entry` / `datetime.utcnow().isoformat() + Z`
  produce).  `MemoryEntry.is_expired` compares the offset-naive
  `datetime.now()` with the parsed creation time; when the parsed timestamp is
  offset-aware that comparison raises `TypeError`, modelled as `.error ()`.
- `load_entry` and `delete_entry` are mutually recursive in the source (the
  expire-on-read branch of `load_entry` calls `delete_entry`, whose first step
  calls `load_entry` again).  On an expired record this recursion only stops
  at the interpreter recursion limit; the `RecursionError` is caught by the
  innermost `try`, after which the unwinding frames delete the record file and
  skip all index maintenance.  The embedding makes this explicit with a fuel
  parameter: fuel exhaustion returns the same caught-exception result
  (`none` / `false`, state unchanged), and fuel-stability lemmas below show
  that every fuel value of at least 2 produces the same outcome.
- Python exceptions that the source catches are modelled with `Except`;
  the error payload carries the state already persisted when the exception
  was raised (index files are written one at a time).
-/

/-- `class MemoryLevel(Enum)`. -/
inductive MemoryLevel : Type
  | immediate
  | working
  | longterm
deriving DecidableEq, Repr

/-- Iteration order of `for level in MemoryLevel` (enum definition order). -/
def MemoryLevel.all : List MemoryLevel := [.immediate, .working, .longterm]

/-- `MemoryLevel.value` strings. -/
def MemoryLevel.toValue : MemoryLevel → String
  | .immediate => "immediate"
  | .working => "working"
  | .longterm => "longterm"

/-- `MemoryLevel(value)`: enum construction from a string; raises `ValueError`
(modelled `.error ()`) on an unknown value. -/
def MemoryLevel.fromString (v : String) : Except Unit MemoryLevel :=
  if v = "immediate" then .ok .immediate
  else if v = "working" then .ok .working
  else if v = "longterm" then .ok .longterm
  else .error ()

/-- `class SourceType(Enum)`. -/
inductive SourceType : Type
  | chat
  | agent
  | function
  | api
deriving DecidableEq, Repr

/-- `SourceType.value` strings. -/
def SourceType.toValue : SourceType → String
  | .chat => "chat"
  | .agent => "agent"
  | .function => "function"
  | .api => "api"

/-- `SourceType(value)`: enum construction from a string; raises `ValueError`
(modelled `.error ()`) on an unknown value.  This is the construction-time
validation the spec refers to: it involves no storage state. -/
def SourceType.fromString (v : String) : Except Unit SourceType :=
  if v = "chat" then .ok .chat
  else if v = "agent" then .ok .agent
  else if v = "function" then .ok .function
  else if v = "api" then .ok .api
  else .error ()

/-- `@dataclass MemorySource`. -/
structure MemorySource : Type where
  type : SourceType
  id : String
  session : Option String
deriving DecidableEq, Repr

/-- An entry timestamp.  `raw` is the ISO-8601 string exactly as stored in the
`timestamp` field (the query sort compares these strings directly); `time` and
`aware` are its parsed components as `is_expired` sees them after
`datetime.fromisoformat`: the comparison value in seconds, and whether the
string carries a UTC offset (a trailing `Z` becomes `+00:00`, making the
parsed `datetime` offset-aware).  The ISO parser itself is not
re-implemented; the parsed view accompanies the raw string. -/
structure Timestamp : Type where
  raw : String
  time : Int
  aware : Bool
deriving DecidableEq, Repr

/-- The `data` payload mapping: the `meta_tags` list that `_update_indices`
reads (absent key behaves as `[]`), plus the rest of the mapping, which the
store passes through verbatim. -/
structure Payload : Type where
  metaTags : List String
  rest : String
deriving DecidableEq, Repr

/-- `@dataclass MemoryEntry`. -/
structure MemoryEntry : Type where
  id : String
  timestamp : Timestamp
  source : MemorySource
  level : MemoryLevel
  data : Payload
  ttl : Option Int
  visibility : String
deriving DecidableEq, Repr

/-- `MemoryEntry.is_expired`.  `if not self.ttl` is Python truthiness: both
`None` and `0` short-circuit to `False`.  Otherwise the naive `datetime.now()`
is compared with the parsed creation time plus the ttl; if the parsed
timestamp is offset-aware the comparison raises `TypeError` (`.error ()`),
else the entry is expired exactly when `now > created + ttl`. -/
def MemoryEntry.isExpired (e : MemoryEntry) (now : Int) : Except Unit Bool :=
  match e.ttl with
  | none => .ok false
  | some t =>
    if t = 0 then .ok false
    else if e.timestamp.aware then .error ()
    else .ok (decide (now > e.timestamp.time + t))

/-- An index file: a JSON object mapping key strings to lists of entry ids,
kept as an insertion-ordered association list. -/
abbrev IndexMap := List (String × List String)

/-- Dictionary lookup, `index.get(k)` / `k in index`. -/
def idxGet : IndexMap → String → Option (List String)
  | [], _ => none
  | p :: rest, k => if p.1 = k then some p.2 else idxGet rest k

/-- Dictionary update `index[k] = v`: replaces the value of an existing key in
place, otherwise appends the new key. -/
def idxSet : IndexMap → String → List String → IndexMap
  | [], k, v => [(k, v)]
  | p :: rest, k, v => if p.1 = k then (k, v) :: rest else p :: idxSet rest k v

/-- `if k not in index: index[k] = []` followed by `index[k].append(id)`. -/
def idxAdd (m : IndexMap) (k id : String) : IndexMap :=
  match idxGet m k with
  | none => idxSet m k [id]
  | some l => idxSet m k (l ++ [id])

/-- The list stored under a key, `[]` when the key is absent. -/
def idxList (m : IndexMap) (k : String) : List String :=
  (idxGet m k).getD []

/-- Number of occurrences of a string in a list. -/
def occCount : List String → String → Nat
  | [], _ => 0
  | y :: ys, x => (if y = x then 1 else 0) + occCount ys x

/-- Number of occurrences of `x` in the list stored under `k`. -/
def idxCount (m : IndexMap) (k x : String) : Nat :=
  occCount (idxList m k) x

/-- `list.remove(x)`: drops the first occurrence, raises `ValueError`
(modelled `none`) when `x` is absent. -/
def removeFirst : List String → String → Option (List String)
  | [], _ => none
  | y :: ys, x => if y = x then some ys else (removeFirst ys x).map (y :: ·)

/-- `if k in index: index[k].remove(id)`: a missing key is a no-op, a present
key with no occurrence of `id` raises `ValueError`. -/
def idxRemove (m : IndexMap) (k id : String) : Option IndexMap :=
  match idxGet m k with
  | none => some m
  | some l => (removeFirst l id).map (idxSet m k)

/-- The tag loop of `_update_indices` with `action = "add"`. -/
def addTags (m : IndexMap) (ts : List String) (id : String) : IndexMap :=
  match ts with
  | [] => m
  | t :: rest => addTags (idxAdd m t id) rest id

/-- The tag loop of `_update_indices` with `action = "remove"`; a
`ValueError` in the middle of the loop aborts it (`none`), in which case the
mutated tag index is never written back to disk. -/
def removeTags (m : IndexMap) (ts : List String) (id : String) : Option IndexMap :=
  match ts with
  | [] => some m
  | t :: rest => (idxRemove m t id).bind (removeTags · rest id)

/-- The session-index key implied by an entry: `entry.source.session`, guarded
by Python truthiness (`if entry.source.session:`), so `None` and the empty
string both opt out. -/
def sessionKeyOf (e : MemoryEntry) : Option String :=
  match e.source.session with
  | none => none
  | some s => if s = "" then none else some s

/-- The source-index key `f"{entry.source.type.value}:{entry.source.id}"`. -/
def sourceKey (e : MemoryEntry) : String :=
  SourceType.toValue e.source.type ++ ":" ++ e.source.id

/-- The record files plus the three index files. -/
abbrev RecMap := List ((MemoryLevel × String) × MemoryEntry)

/-- Lookup of the record file at `(level, id)`. -/
def recGet : RecMap → MemoryLevel → String → Option MemoryEntry
  | [], _, _ => none
  | p :: rest, lvl, id =>
    if p.1.1 = lvl ∧ p.1.2 = id then some p.2 else recGet rest lvl id

/-- Writing the record file at `(level, id)` (overwrites an existing one). -/
def recSet : RecMap → MemoryLevel → String → MemoryEntry → RecMap
  | [], lvl, id, e => [((lvl, id), e)]
  | p :: rest, lvl, id, e =>
    if p.1.1 = lvl ∧ p.1.2 = id then ((lvl, id), e) :: rest
    else p :: recSet rest lvl id e

/-- `file_path.unlink()` guarded by `file_path.exists()`. -/
def recDel : RecMap → MemoryLevel → String → RecMap
  | [], _, _ => []
  | p :: rest, lvl, id =>
    if p.1.1 = lvl ∧ p.1.2 = id then rest else p :: recDel rest lvl id

/-- The persistent state owned by `FileBasedMemoryStore`. -/
structure StoreState : Type where
  records : RecMap
  sessions : IndexMap
  tags : IndexMap
  sources : IndexMap
deriving DecidableEq, Repr

/-- A freshly initialised store: empty level directories, no index content. -/
def StoreState.empty : StoreState := ⟨[], [], [], []⟩

/-- `_update_indices(entry, "add")`: appends `entry.id` under the session key
(when present), under every tag in `data["meta_tags"]`, and under the source
key, writing each index file in that order.  The add action never raises. -/
def updateIndicesAdd (e : MemoryEntry) (s : StoreState) : StoreState :=
  let sess :=
    match sessionKeyOf e with
    | some k => idxAdd s.sessions k e.id
    | none => s.sessions
  let s1 : StoreState := { s with sessions := sess }
  let s2 : StoreState := { s1 with tags := addTags s1.tags e.data.metaTags e.id }
  { s2 with sources := idxAdd s2.sources (sourceKey e) e.id }

/-- `_update_indices(entry, "remove")`: removes the first occurrence of
`entry.id` under each key of the current record.  `list.remove` raises
`ValueError` when the id is absent from a present key; the error payload is
the state already written to disk at that point (the session index is saved
before the tag loop runs, the tag index before the source update). -/
def updateIndicesRemove (e : MemoryEntry) (s : StoreState) :
    Except StoreState StoreState :=
  match (match sessionKeyOf e with
         | some k => idxRemove s.sessions k e.id
         | none => some s.sessions) with
  | none => .error s
  | some sess =>
    let s1 : StoreState := { s with sessions := sess }
    match removeTags s1.tags e.data.metaTags e.id with
    | none => .error s1
    | some tg =>
      let s2 : StoreState := { s1 with tags := tg }
      match idxRemove s2.sources (sourceKey e) e.id with
      | none => .error s2
      | some src => .ok { s2 with sources := src }

/-- `FileBasedMemoryStore.save_entry`: writes the full record under
`(entry.level, entry.id)` (overwriting), then adds the entry to the indices.
The add action raises no exception, so absent a medium failure (modelled
separately below) the `except` branch is unreachable and the result is
`True`. -/
def saveEntry (s : StoreState) (e : MemoryEntry) : Bool × StoreState :=
  let s1 : StoreState := { s with records := recSet s.records e.level e.id e }
  (true, updateIndicesAdd e s1)

mutual

/-- `FileBasedMemoryStore.load_entry`.  Branches: missing file, reconstruction
plus expiry check (a `TypeError` from `is_expired` is caught and yields
`None`), the expire-on-read call into `delete_entry`, and the live result.
`fuel = 0` stands for the interpreter recursion limit: the `RecursionError`
is caught by the `except` of this frame and `None` is returned. -/
def loadEntry : Nat → StoreState → Int → MemoryLevel → String →
    Option MemoryEntry × StoreState
  | 0, s, _, _, _ => (none, s)
  | Nat.succ fuel, s, now, lvl, id =>
    match recGet s.records lvl id with
    | none => (none, s)
    | some e =>
      match e.isExpired now with
      | .error _ => (none, s)
      | .ok true => (none, (deleteEntry fuel s now lvl id).2)
      | .ok false => (some e, s)

/-- `FileBasedMemoryStore.delete_entry`: loads the entry, removes it from the
indices when the load returned one (an exception there is caught, returning
`False` with the file left in place), then unlinks the record file if it
exists and returns `True`.  `fuel = 0` is the caught `RecursionError`. -/
def deleteEntry : Nat → StoreState → Int → MemoryLevel → String →
    Bool × StoreState
  | 0, s, _, _, _ => (false, s)
  | Nat.succ fuel, s, now, lvl, id =>
    match loadEntry fuel s now lvl id with
    | (some e, s1) =>
      match updateIndicesRemove e s1 with
      | .ok s2 => (true, { s2 with records := recDel s2.records lvl id })
      | .error s2 => (false, s2)
    | (none, s1) => (true, { s1 with records := recDel s1.records lvl id })

end

/-- The level probe of `query_by_session` / `query_by_tags`: try the levels in
enum order and keep the first hit. -/
def resolveIdAux : List MemoryLevel → StoreState → Int → String →
    Option MemoryEntry × StoreState
  | [], s, _, _ => (none, s)
  | lvl :: rest, s, now, id =>
    match loadEntry 2 s now lvl id with
    | (some e, s1) => (some e, s1)
    | (none, s1) => resolveIdAux rest s1 now id

/-- Resolve one candidate id to at most one entry. -/
def resolveId (s : StoreState) (now : Int) (id : String) :
    Option MemoryEntry × StoreState :=
  resolveIdAux MemoryLevel.all s now id

/-- The id loop shared by the query paths, preserving index order. -/
def queryLoop : List String → StoreState → Int → List MemoryEntry × StoreState
  | [], s, _ => ([], s)
  | id :: rest, s, now =>
    match resolveId s now id with
    | (some e, s1) =>
      let r := queryLoop rest s1 now
      (e :: r.1, r.2)
    | (none, s1) => queryLoop rest s1 now

/-- `FileBasedMemoryStore.query_by_session`. -/
def queryBySession (s : StoreState) (now : Int) (sid : String) :
    List MemoryEntry × StoreState :=
  queryLoop (idxList s.sessions sid) s now

/-- Python string comparison, used by `sorted` on the raw timestamp strings:
lexicographic over the character sequences by code point, with a proper
prefix comparing smaller.  Written as a structural recursion so that it is
kernel-computable. -/
def strLtChars : List Char → List Char → Bool
  | _, [] => false
  | [], _ :: _ => true
  | c1 :: r1, c2 :: r2 =>
    if c1 = c2 then strLtChars r1 r2 else decide (c1 < c2)

/-- Python `s1 < s2` on strings. -/
def strLt (a b : String) : Bool := strLtChars a.data b.data

/-- Python `s1 <= s2` on strings: not strictly greater. -/
def strLe (a b : String) : Bool := !(strLt b a)

/-- One insertion step of `sorted(results, key=lambda e: e.timestamp,
reverse=True)`: the sort key is the raw ISO timestamp string, compared as a
string, descending, stable for ties. -/
def sortDescInsert (e : MemoryEntry) : List MemoryEntry → List MemoryEntry
  | [] => [e]
  | x :: xs =>
    if strLe x.timestamp.raw e.timestamp.raw then e :: x :: xs
    else x :: sortDescInsert e xs

/-- The final ordering pass of `DistributedMemoryAPI.query`: descending by
the raw timestamp string. -/
def sortByTimestampDesc (l : List MemoryEntry) : List MemoryEntry :=
  l.foldr sortDescInsert []

/-- `DistributedMemoryAPI.query` on the session-selection path: candidate ids
from the session index, the optional `level` and `since` post-filters, then
the descending sort by creation time. -/
def queryApi (s : StoreState) (now : Int) (sid : String)
    (lvlF : Option MemoryLevel) (sinceF : Option Int) :
    List MemoryEntry × StoreState :=
  let r := queryBySession s now sid
  let r1 :=
    match lvlF with
    | some lv => r.1.filter (fun e => decide (e.level = lv))
    | none => r.1
  let r2 :=
    match sinceF with
    | some t => r1.filter (fun e => decide (t < e.timestamp.time))
    | none => r1
  (sortByTimestampDesc r2, r.2)

/-- The ids of the record files of one level directory
(`level_path.glob("*.json")`), snapshotted when that level is scanned. -/
def levelIds (s : StoreState) (lvl : MemoryLevel) : List String :=
  (s.records.filter (fun p => decide (p.1.1 = lvl))).map (fun p => p.1.2)

/-- The per-file body of `clean_expired` for one level.  There is no
`try` in `clean_expired` itself: a `TypeError` from the direct
`entry.is_expired()` call would propagate to the caller (`.error ()`). -/
def cleanLevel (lvl : MemoryLevel) : List String → StoreState → Int → Nat →
    Except Unit (Nat × StoreState)
  | [], s, _, acc => .ok (acc, s)
  | id :: rest, s, now, acc =>
    match loadEntry 2 s now lvl id with
    | (some e, s1) =>
      match e.isExpired now with
      | .error _ => .error ()
      | .ok true =>
        cleanLevel lvl rest (deleteEntry 2 s1 now lvl id).2 now (acc + 1)
      | .ok false => cleanLevel lvl rest s1 now acc
    | (none, s1) => cleanLevel lvl rest s1 now acc

/-- The level loop of `clean_expired`. -/
def cleanLevels : List MemoryLevel → StoreState → Int → Nat →
    Except Unit (Nat × StoreState)
  | [], s, _, acc => .ok (acc, s)
  | lvl :: rest, s, now, acc =>
    match cleanLevel lvl (levelIds s lvl) s now acc with
    | .ok r => cleanLevels rest r.2 now r.1
    | .error u => .error u

/-- `FileBasedMemoryStore.clean_expired`. -/
def cleanExpired (s : StoreState) (now : Int) : Except Unit (Nat × StoreState) :=
  cleanLevels MemoryLevel.all s now 0

/-- One externally driven store operation, carrying the wall-clock time at
which it runs.  `deleteEntry` and `loadEntry` run at fuel 2, which the
fuel-stability lemmas below show is the fixed point of the expire-on-read
recursion. -/
inductive Op : Type
  | put (e : MemoryEntry)
  | del (now : Int) (lvl : MemoryLevel) (id : String)
  | get (now : Int) (lvl : MemoryLevel) (id : String)
deriving DecidableEq, Repr

/-- Apply one operation, keeping only the state. -/
def applyOp (s : StoreState) : Op → StoreState
  | .put e => (saveEntry s e).2
  | .del now lvl id => (deleteEntry 2 s now lvl id).2
  | .get now lvl id => (loadEntry 2 s now lvl id).2

/-- Run a sequence of operations from a freshly initialised store. -/
def runOps (ops : List Op) : StoreState :=
  ops.foldl applyOp StoreState.empty

/-- How many index occurrences under session key `k` one record of entry `e`
accounts for (`_update_indices` appends once when the session key matches). -/
def keyMultSessions (e : MemoryEntry) (k : String) : Nat :=
  match sessionKeyOf e with
  | some k2 => if k2 = k then 1 else 0
  | none => 0

/-- How many index occurrences under tag key `k` one record of entry `e`
accounts for (one append per occurrence of `k` in `meta_tags`). -/
def keyMultTags (e : MemoryEntry) (k : String) : Nat :=
  occCount e.data.metaTags k

/-- How many index occurrences under source key `k` one record of entry `e`
accounts for. -/
def keyMultSources (e : MemoryEntry) (k : String) : Nat :=
  if sourceKey e = k then 1 else 0

/-- Total number of index occurrences under key `k` that the stored records
whose file name is `id` account for. -/
def reqCount (mult : MemoryEntry → String → Nat) (k id : String) : RecMap → Nat
  | [] => 0
  | p :: rest => (if p.1.2 = id then mult p.2 k else 0) + reqCount mult k id rest

/-- Every record file stores an entry whose `id` field equals the file name
(`save_entry` writes entry `e` at `(e.level, e.id)`). -/
def WfRecords (m : RecMap) : Prop := ∀ p ∈ m, p.1.2 = p.2.id

/-- The reachable-state invariant of the store: record file names match the
stored `id` fields, record keys are unique (one file per `(level, id)`), and
for every index key each id occurs at least as often as the stored records
referencing that key require.  This is the part of the index bookkeeping that
the Python code actually maintains; the converse (no stale occurrences) is
refuted below. -/
def InvC (s : StoreState) : Prop :=
  WfRecords s.records
  ∧ (s.records.map Prod.fst).Nodup
  ∧ (∀ k id, reqCount keyMultSessions k id s.records ≤ idxCount s.sessions k id)
  ∧ (∀ k id, reqCount keyMultTags k id s.records ≤ idxCount s.tags k id)
  ∧ (∀ k id, reqCount keyMultSources k id s.records ≤ idxCount s.sources k id)

/-!
Failure-injected variants, for the storage-failure claim.  A schedule
`Sched` says, for the n-th fallible medium operation performed (file reads
and writes, in program order), whether it raises an `OSError`.  Each function
threads the operation counter; a raised error is caught exactly where the
Python `try` blocks catch it.
-/

/-- Which of the numbered medium operations fail. -/
abbrev Sched := Nat → Bool

/-- `_update_indices(entry, "add")` with failure injection: for each of the
three indices, a read of the index file followed by a write back.  A failure
raises out of `_update_indices` into the caller; the error payload carries
the next operation number and the state persisted so far. -/
def updateIndicesAddF (sched : Sched) (k : Nat) (e : MemoryEntry)
    (s : StoreState) : Except (Nat × StoreState) (Nat × StoreState) :=
  if sched k then .error (k + 1, s)
  else
    let sess :=
      match sessionKeyOf e with
      | some key => idxAdd s.sessions key e.id
      | none => s.sessions
    if sched (k + 1) then .error (k + 2, s)
    else
      let s1 : StoreState := { s with sessions := sess }
      if sched (k + 2) then .error (k + 3, s1)
      else
        let tg := addTags s1.tags e.data.metaTags e.id
        if sched (k + 3) then .error (k + 4, s1)
        else
          let s2 : StoreState := { s1 with tags := tg }
          if sched (k + 4) then .error (k + 5, s2)
          else
            let src := idxAdd s2.sources (sourceKey e) e.id
            if sched (k + 5) then .error (k + 6, s2)
            else .ok (k + 6, { s2 with sources := src })

/-- `_update_indices(entry, "remove")` with failure injection; the in-memory
`ValueError` of `list.remove` can also abort the sequence, after the read of
the affected index file and before its write. -/
def updateIndicesRemoveF (sched : Sched) (k : Nat) (e : MemoryEntry)
    (s : StoreState) : Except (Nat × StoreState) (Nat × StoreState) :=
  if sched k then .error (k + 1, s)
  else
    match (match sessionKeyOf e with
           | some key => idxRemove s.sessions key e.id
           | none => some s.sessions) with
    | none => .error (k + 1, s)
    | some sess =>
      if sched (k + 1) then .error (k + 2, s)
      else
        let s1 : StoreState := { s with sessions := sess }
        if sched (k + 2) then .error (k + 3, s1)
        else
          match removeTags s1.tags e.data.metaTags e.id with
          | none => .error (k + 3, s1)
          | some tg =>
            if sched (k + 3) then .error (k + 4, s1)
            else
              let s2 : StoreState := { s1 with tags := tg }
              if sched (k + 4) then .error (k + 5, s2)
              else
                match idxRemove s2.sources (sourceKey e) e.id with
                | none => .error (k + 5, s2)
                | some src =>
                  if sched (k + 5) then .error (k + 6, s2)
                  else .ok (k + 6, { s2 with sources := src })

mutual

/-- `load_entry` with failure injection: the read of an existing record file
(the `open`/`json.load`) is fallible; a failure is caught by the `except`
of `load_entry` and yields `None` with the state untouched. -/
def loadEntryF (sched : Sched) : Nat → Nat → StoreState → Int → MemoryLevel →
    String → Option MemoryEntry × Nat × StoreState
  | 0, k, s, _, _, _ => (none, k, s)
  | Nat.succ fuel, k, s, now, lvl, id =>
    match recGet s.records lvl id with
    | none => (none, k, s)
    | some e =>
      if sched k then (none, k + 1, s)
      else
        match e.isExpired now with
        | .error _ => (none, k + 1, s)
        | .ok true =>
          let r := deleteEntryF sched fuel (k + 1) s now lvl id
          (none, r.2.1, r.2.2)
        | .ok false => (some e, k + 1, s)

/-- `delete_entry` with failure injection: the load (whose internal failure
is swallowed), the index removal, and the guarded `unlink`, which is a
fallible medium operation only when the file exists. -/
def deleteEntryF (sched : Sched) : Nat → Nat → StoreState → Int → MemoryLevel →
    String → Bool × Nat × StoreState
  | 0, k, s, _, _, _ => (false, k, s)
  | Nat.succ fuel, k, s, now, lvl, id =>
    match loadEntryF sched fuel k s now lvl id with
    | (some e, k1, s1) =>
      match updateIndicesRemoveF sched k1 e s1 with
      | .ok (k2, s2) =>
        if (recGet s2.records lvl id).isSome then
          if sched k2 then (false, k2 + 1, s2)
          else (true, k2 + 1, { s2 with records := recDel s2.records lvl id })
        else (true, k2, s2)
      | .error (k2, s2) => (false, k2, s2)
    | (none, k1, s1) =>
      if (recGet s1.records lvl id).isSome then
        if sched k1 then (false, k1 + 1, s1)
        else (true, k1 + 1, { s1 with records := recDel s1.records lvl id })
      else (true, k1, s1)

end

/-- `save_entry` with failure injection: the record write comes first, the
index updates after; any raised error is caught and turned into `False`. -/
def saveEntryF (sched : Sched) (k : Nat) (s : StoreState) (e : MemoryEntry) :
    Bool × Nat × StoreState :=
  if sched k then (false, k + 1, s)
  else
    let s1 : StoreState := { s with records := recSet s.records e.level e.id e }
    match updateIndicesAddF sched (k + 1) e s1 with
    | .ok (k2, s2) => (true, k2, s2)
    | .error (k2, s2) => (false, k2, s2)

/-- Whether some index list contains `id`. -/
def idInIndexMap (m : IndexMap) (id : String) : Bool :=
  m.any (fun p => decide (id ∈ p.2))

/-- Whether any of the three indices references `id`. -/
def idInAnyIndex (s : StoreState) (id : String) : Bool :=
  idInIndexMap s.sessions id || idInIndexMap s.tags id || idInIndexMap s.sources id

/-- Whether a record file for `id` exists at some level. -/
def recordSomewhere (s : StoreState) (id : String) : Bool :=
  MemoryLevel.all.any (fun l => (recGet s.records l id).isSome)

/-- The forbidden situation of the error-handling contract: an id referenced
by an index with no record at any level. -/
def isDangling (s : StoreState) (id : String) : Bool :=
  idInAnyIndex s id && !(recordSomewhere s id)

/-- Index membership only shrinks: every id listed anywhere in the second
map is listed somewhere in the first. -/
def memSubIdx (m2 m : IndexMap) : Prop :=
  ∀ x, idInIndexMap m2 x = true → idInIndexMap m x = true

/-!
Concrete inputs used by the counterexamples and witnesses.
-/

/-- A plain entry: no ttl, offset-naive creation time 0, session `S`,
tag `A`, source key `chat:c1`. -/
def entPlain : MemoryEntry :=
  { id := "e1", timestamp := ⟨"1970-01-01T00:00:00", 0, false⟩,
    source := { type := .chat, id := "c1", session := some "S" },
    level := .immediate, data := { metaTags := ["A"], rest := "" },
    ttl := none, visibility := "private" }

/-- The same entry with a ttl and the offset-aware (trailing `Z`) timestamp
that `save_entry` itself produces. -/
def entAwareTtl : MemoryEntry :=
  { entPlain with
    ttl := some 3600,
    timestamp := ⟨"1970-01-01T00:00:00Z", 0, true⟩ }

/-- The same entry with a ttl and an offset-naive timestamp, already past
its expiry at time 100. -/
def entNaiveTtl : MemoryEntry :=
  { entPlain with
    ttl := some 10,
    timestamp := ⟨"1970-01-01T00:00:00", 0, false⟩ }

/-- `entPlain` with ttl `0`. -/
def entZeroTtl : MemoryEntry :=
  { entPlain with ttl := some 0 }

/-- `entPlain` rewritten with tag `B` instead of `A` (an overwrite that
changes the tag set). -/
def entPlainB : MemoryEntry :=
  { entPlain with data := { metaTags := ["B"], rest := "" } }

/-- Session entry for the ordering scenarios: creation time `t`, raw
timestamp string `r`. -/
def entSession (i : String) (t : Int) (r : String) : MemoryEntry :=
  { id := i, timestamp := ⟨r, t, false⟩,
    source := { type := .chat, id := "c1", session := some "S1" },
    level := .immediate, data := { metaTags := [], rest := "" },
    ttl := none, visibility := "private" }

/-- Session S1 entry whose ISO timestamp uses a +01:00 offset: 01:00:03 at
+01:00 is 3 seconds after the epoch in UTC, parsed offset-aware.  No ttl, so
the expiry check never runs its comparison. -/
def entIsoOffset : MemoryEntry :=
  { id := "i1", timestamp := ⟨"1970-01-01T01:00:03+01:00", 3, true⟩,
    source := { type := .chat, id := "c1", session := some "S1" },
    level := .immediate, data := { metaTags := [], rest := "" },
    ttl := none, visibility := "private" }

/-- Session S1 entry whose ISO timestamp uses the trailing-Z form: 5 seconds
after the epoch in UTC, parsed offset-aware.  No ttl. -/
def entIsoZulu : MemoryEntry :=
  { id := "i2", timestamp := ⟨"1970-01-01T00:00:05Z", 5, true⟩,
    source := { type := .chat, id := "c1", session := some "S1" },
    level := .immediate, data := { metaTags := [], rest := "" },
    ttl := none, visibility := "private" }

/-- The state left by sweeping a store that held only the expired
`entNaiveTtl`: the record file is gone, the indices still reference it. -/
def sweptState : StoreState :=
  { records := [], sessions := [("S", ["e1"])],
    tags := [("A", ["e1"])], sources := [("chat:c1", ["e1"])] }

/-- A state whose session index already references an id with no record. -/
def stateWithDangler : StoreState :=
  { records := [], sessions := [("K", ["zz"])], tags := [], sources := [] }

/-- The failure schedule that fails exactly the first medium operation. -/
def schedFailFirst : Sched := fun n => decide (n = 0)

/-- The all-success schedule. -/
def schedOk : Sched := fun _ => false

/-!
Basic lemmas about the dictionary and list primitives.
-/

theorem idxGet_idxSet_self (m : IndexMap) (k : String) (v : List String) :
    idxGet (idxSet m k v) k = some v := by
  induction m with
  | nil => simp [idxSet, idxGet]
  | cons p rest ih =>
    by_cases h : p.1 = k
    · simp [idxSet, h, idxGet]
    · simp [idxSet, h, idxGet, ih]

theorem idxGet_idxSet_other (m : IndexMap) (k k2 : String) (v : List String)
    (h : k2 ≠ k) : idxGet (idxSet m k v) k2 = idxGet m k2 := by
  induction m with
  | nil => simp [idxSet, idxGet, Ne.symm h]
  | cons p rest ih =>
    by_cases hp : p.1 = k
    · have : p.1 ≠ k2 := by rw [hp]; exact Ne.symm h
      simp [idxSet, hp, idxGet, Ne.symm h, this]
    · simp [idxSet, hp, idxGet, ih]

theorem idxList_idxSet_self (m : IndexMap) (k : String) (v : List String) :
    idxList (idxSet m k v) k = v := by
  simp [idxList, idxGet_idxSet_self]

theorem idxList_idxSet_other (m : IndexMap) (k k2 : String) (v : List String)
    (h : k2 ≠ k) : idxList (idxSet m k v) k2 = idxList m k2 := by
  simp [idxList, idxGet_idxSet_other m k k2 v h]

theorem occCount_append (l1 l2 : List String) (x : String) :
    occCount (l1 ++ l2) x = occCount l1 x + occCount l2 x := by
  induction l1 with
  | nil => simp [occCount]
  | cons y ys ih => simp [occCount, ih]; omega

theorem occCount_pos_mem (l : List String) (x : String) (h : 1 ≤ occCount l x) :
    x ∈ l := by
  induction l with
  | nil => simp [occCount] at h
  | cons y ys ih =>
    by_cases hy : y = x
    · simp [hy]
    · simp [occCount, hy] at h
      exact List.mem_cons_of_mem _ (ih h)

theorem occCount_pos_of_mem (l : List String) (x : String) (h : x ∈ l) :
    1 ≤ occCount l x := by
  induction l with
  | nil => simp at h
  | cons y ys ih =>
    rcases List.mem_cons.mp h with h1 | h2
    · simp [occCount, h1]
    · have := ih h2
      simp [occCount]
      omega

theorem idxCount_idxAdd (m : IndexMap) (k id k2 x : String) :
    idxCount (idxAdd m k id) k2 x
      = idxCount m k2 x + (if k2 = k ∧ x = id then 1 else 0) := by
  unfold idxAdd
  cases hg : idxGet m k with
  | none =>
    by_cases hk : k2 = k
    · subst hk
      rw [idxCount, idxList_idxSet_self]
      by_cases hx : x = id
      · subst hx; simp [idxCount, idxList, hg, occCount]
      · have : id ≠ x := fun hh => hx hh.symm
        simp [idxCount, idxList, hg, occCount, hx, this]
    · simp [idxCount, idxList_idxSet_other m k k2 _ hk, hk]
  | some l =>
    by_cases hk : k2 = k
    · subst hk
      rw [idxCount, idxList_idxSet_self, occCount_append]
      by_cases hx : x = id
      · subst hx; simp [idxCount, idxList, hg, occCount]
      · have : id ≠ x := fun hh => hx hh.symm
        simp [idxCount, idxList, hg, occCount, hx, this]
    · simp [idxCount, idxList_idxSet_other m k k2 _ hk, hk]

theorem idxCount_addTags (ts : List String) (m : IndexMap) (id k2 x : String) :
    idxCount (addTags m ts id) k2 x
      = idxCount m k2 x + (if x = id then occCount ts k2 else 0) := by
  induction ts generalizing m with
  | nil => simp [addTags, occCount]
  | cons t rest ih =>
    rw [addTags, ih, idxCount_idxAdd]
    by_cases hx : x = id
    · subst hx
      by_cases hk : k2 = t
      · subst hk; simp [occCount]; omega
      · have htk : t ≠ k2 := fun hh => hk hh.symm
        simp [occCount, hk, htk]
    · simp [hx]

theorem removeFirst_spec (l : List String) (id : String) (h : id ∈ l) :
    ∃ l2, removeFirst l id = some l2
      ∧ (∀ x, occCount l2 x + (if x = id then 1 else 0) = occCount l x)
      ∧ (∀ x, x ∈ l2 → x ∈ l) := by
  induction l with
  | nil => simp at h
  | cons y ys ih =>
    by_cases hy : y = id
    · refine ⟨ys, by simp [removeFirst, hy], ?_, ?_⟩
      · intro x
        rw [hy]
        by_cases hx : x = id
        · simp [occCount, hx, Nat.add_comm]
        · have hne : id ≠ x := fun hh => hx hh.symm
          simp [occCount, hx, hne]
      · intro x hx; exact List.mem_cons_of_mem _ hx
    · have hmem : id ∈ ys := by
        rcases List.mem_cons.mp h with h1 | h2
        · exact absurd h1.symm hy
        · exact h2
      obtain ⟨l2, hrf, hcnt, hsub⟩ := ih hmem
      refine ⟨y :: l2, by simp [removeFirst, hy, hrf], ?_, ?_⟩
      · intro x
        have := hcnt x
        simp [occCount]
        omega
      · intro x hx
        rcases List.mem_cons.mp hx with h1 | h2
        · simp [h1]
        · exact List.mem_cons_of_mem _ (hsub x h2)

theorem removeFirst_mem_sub (l l2 : List String) (id : String)
    (h : removeFirst l id = some l2) : ∀ x, x ∈ l2 → x ∈ l := by
  induction l generalizing l2 with
  | nil => simp [removeFirst] at h
  | cons y ys ih =>
    by_cases hy : y = id
    · simp [removeFirst, hy] at h
      subst h
      intro x hx; exact List.mem_cons_of_mem _ hx
    · simp [removeFirst, hy] at h
      obtain ⟨l3, h3, hl⟩ := h
      subst hl
      intro x hx
      rcases List.mem_cons.mp hx with h1 | h2
      · simp [h1]
      · exact List.mem_cons_of_mem _ (ih l3 h3 x h2)

theorem idxRemove_spec (m : IndexMap) (k id : String)
    (h : 1 ≤ idxCount m k id) :
    ∃ m2, idxRemove m k id = some m2
      ∧ (∀ k2 x, idxCount m2 k2 x + (if k2 = k ∧ x = id then 1 else 0)
          = idxCount m k2 x) := by
  unfold idxRemove
  cases hg : idxGet m k with
  | none => simp [idxCount, idxList, hg, occCount] at h
  | some l =>
    have hmem : id ∈ l := by
      apply occCount_pos_mem
      simpa [idxCount, idxList, hg] using h
    obtain ⟨l2, hrf, hcnt, _⟩ := removeFirst_spec l id hmem
    refine ⟨idxSet m k l2, by simp [hrf], ?_⟩
    intro k2 x
    by_cases hk : k2 = k
    · subst hk
      have hx2 := hcnt x
      have e1 : idxCount (idxSet m k2 l2) k2 x = occCount l2 x := by
        rw [idxCount, idxList_idxSet_self]
      have e2 : idxCount m k2 x = occCount l x := by
        rw [idxCount, idxList, hg]
        rfl
      rw [e1, e2]
      by_cases hx : x = id
      · simp [hx] at hx2 ⊢
        omega
      · simp [hx] at hx2 ⊢
        omega
    · simp [idxCount, idxList_idxSet_other m k k2 _ hk, hk]

theorem idxRemove_mem_sub (m m2 : IndexMap) (k id : String)
    (h : idxRemove m k id = some m2) :
    ∀ k2 x, x ∈ idxList m2 k2 → x ∈ idxList m k2 := by
  unfold idxRemove at h
  cases hg : idxGet m k with
  | none =>
    rw [hg] at h
    simp at h
    subst h
    intro k2 x hx; exact hx
  | some l =>
    rw [hg] at h
    simp at h
    obtain ⟨l2, hrf, hm⟩ := h
    subst hm
    intro k2 x hx
    by_cases hk : k2 = k
    · subst hk
      rw [idxList_idxSet_self] at hx
      have := removeFirst_mem_sub l l2 id hrf x hx
      simp [idxList, hg, this]
    · rwa [idxList_idxSet_other m k k2 _ hk] at hx

theorem removeTags_spec (ts : List String) (m : IndexMap) (id : String)
    (h : ∀ k, occCount ts k ≤ idxCount m k id) :
    ∃ m2, removeTags m ts id = some m2
      ∧ (∀ k x, idxCount m2 k x + (if x = id then occCount ts k else 0)
          = idxCount m k x) := by
  induction ts generalizing m with
  | nil => exact ⟨m, rfl, by intro k x; simp [occCount]⟩
  | cons t rest ih =>
    have h1 : 1 ≤ idxCount m t id := by
      have := h t
      simp [occCount] at this
      omega
    obtain ⟨m1, hrm, hcnt⟩ := idxRemove_spec m t id h1
    have h2 : ∀ k, occCount rest k ≤ idxCount m1 k id := by
      intro k
      have hc := hcnt k id
      have hk := h k
      by_cases hkt : k = t
      · subst hkt
        simp [occCount] at hc hk
        omega
      · have htk : t ≠ k := fun hh => hkt hh.symm
        simp [occCount, hkt, htk] at hc hk
        omega
    obtain ⟨m2, hrt, hcnt2⟩ := ih m1 h2
    refine ⟨m2, by simp [removeTags, hrm, hrt], ?_⟩
    intro k x
    have hc := hcnt k x
    have hc2 := hcnt2 k x
    by_cases hx : x = id
    · subst hx
      by_cases hkt : k = t
      · subst hkt
        simp [occCount] at hc hc2 ⊢
        omega
      · have htk : t ≠ k := fun hh => hkt hh.symm
        simp [occCount, hkt, htk] at hc hc2 ⊢
        omega
    · simp [hx] at hc hc2 ⊢
      omega

theorem removeTags_mem_sub (ts : List String) (m m2 : IndexMap) (id : String)
    (h : removeTags m ts id = some m2) :
    ∀ k x, x ∈ idxList m2 k → x ∈ idxList m k := by
  induction ts generalizing m with
  | nil =>
    simp [removeTags] at h
    subst h
    intro k x hx; exact hx
  | cons t rest ih =>
    rw [removeTags] at h
    cases hrm : idxRemove m t id with
    | none => rw [hrm] at h; simp at h
    | some m1 =>
      rw [hrm] at h
      simp at h
      intro k x hx
      exact idxRemove_mem_sub m m1 t id hrm k x (ih m1 h k x hx)

/-!
Lemmas about the record files.
-/

theorem recGet_recSet_self (m : RecMap) (lvl : MemoryLevel) (id : String)
    (e : MemoryEntry) : recGet (recSet m lvl id e) lvl id = some e := by
  induction m with
  | nil => simp [recSet, recGet]
  | cons p rest ih =>
    by_cases h : p.1.1 = lvl ∧ p.1.2 = id
    · simp [recSet, h, recGet]
    · simp [recSet, h, recGet, ih]

theorem recGet_recSet_other (m : RecMap) (lvl lvl2 : MemoryLevel)
    (id id2 : String) (e : MemoryEntry) (h : ¬(lvl2 = lvl ∧ id2 = id)) :
    recGet (recSet m lvl id e) lvl2 id2 = recGet m lvl2 id2 := by
  induction m with
  | nil =>
    have hne : ¬(lvl = lvl2 ∧ id = id2) := fun hh => h ⟨hh.1.symm, hh.2.symm⟩
    simp [recSet, recGet, hne]
  | cons p rest ih =>
    by_cases hp : p.1.1 = lvl ∧ p.1.2 = id
    · have hne : ¬(lvl = lvl2 ∧ id = id2) := fun hh => h ⟨hh.1.symm, hh.2.symm⟩
      have hp2 : ¬(p.1.1 = lvl2 ∧ p.1.2 = id2) := by
        rintro ⟨ha, hb⟩
        exact h ⟨hp.1 ▸ ha.symm ▸ rfl, hp.2 ▸ hb.symm ▸ rfl⟩
      simp [recSet, hp, recGet, hne, hp2]
    · simp [recSet, hp, recGet, ih]

theorem mem_recSet (m : RecMap) (lvl : MemoryLevel) (id : String)
    (e : MemoryEntry) (p : (MemoryLevel × String) × MemoryEntry)
    (h : p ∈ recSet m lvl id e) : p = ((lvl, id), e) ∨ p ∈ m := by
  induction m with
  | nil => simp [recSet] at h; simp [h]
  | cons q rest ih =>
    by_cases hq : q.1.1 = lvl ∧ q.1.2 = id
    · rw [recSet, if_pos hq] at h
      rcases List.mem_cons.mp h with h1 | h2
      · exact Or.inl h1
      · exact Or.inr (List.mem_cons_of_mem _ h2)
    · rw [recSet, if_neg hq] at h
      rcases List.mem_cons.mp h with h1 | h2
      · exact Or.inr (by simp [h1])
      · rcases ih h2 with h3 | h4
        · exact Or.inl h3
        · exact Or.inr (List.mem_cons_of_mem _ h4)

theorem mem_keys_recSet (m : RecMap) (lvl : MemoryLevel) (id : String)
    (e : MemoryEntry) (q : MemoryLevel × String)
    (h : q ∈ (recSet m lvl id e).map Prod.fst) :
    q ∈ m.map Prod.fst ∨ q = (lvl, id) := by
  simp only [List.mem_map] at h
  obtain ⟨p, hp, hq⟩ := h
  rcases mem_recSet m lvl id e p hp with h1 | h2
  · right; rw [← hq, h1]
  · left; exact List.mem_map.mpr ⟨p, h2, hq⟩

theorem recSet_nodup (m : RecMap) (lvl : MemoryLevel) (id : String)
    (e : MemoryEntry) (h : (m.map Prod.fst).Nodup) :
    ((recSet m lvl id e).map Prod.fst).Nodup := by
  induction m with
  | nil => simp [recSet]
  | cons p rest ih =>
    rw [List.map_cons, List.nodup_cons] at h
    by_cases hp : p.1.1 = lvl ∧ p.1.2 = id
    · rw [recSet, if_pos hp]
      have hkey : p.1 = (lvl, id) := by
        obtain ⟨h1, h2⟩ := hp
        exact Prod.ext h1 h2
      rw [List.map_cons, List.nodup_cons]
      exact ⟨hkey ▸ h.1, h.2⟩
    · rw [recSet, if_neg hp]
      rw [List.map_cons, List.nodup_cons]
      refine ⟨?_, ih h.2⟩
      intro hmem
      rcases mem_keys_recSet rest lvl id e p.1 hmem with h1 | h2
      · exact h.1 h1
      · apply hp
        rw [h2]
        exact ⟨rfl, rfl⟩

theorem recDel_sublist (m : RecMap) (lvl : MemoryLevel) (id : String) :
    List.Sublist (recDel m lvl id) m := by
  induction m with
  | nil => simp [recDel]
  | cons p rest ih =>
    by_cases hp : p.1.1 = lvl ∧ p.1.2 = id
    · rw [recDel, if_pos hp]
      exact List.sublist_cons_of_sublist _ (List.Sublist.refl rest)
    · rw [recDel, if_neg hp]
      exact List.Sublist.cons₂ _ ih

theorem recDel_nodup (m : RecMap) (lvl : MemoryLevel) (id : String)
    (h : (m.map Prod.fst).Nodup) :
    ((recDel m lvl id).map Prod.fst).Nodup :=
  List.Nodup.sublist (List.Sublist.map Prod.fst (recDel_sublist m lvl id)) h

theorem recDel_of_get_none (m : RecMap) (lvl : MemoryLevel) (id : String)
    (h : recGet m lvl id = none) : recDel m lvl id = m := by
  induction m with
  | nil => simp [recDel]
  | cons p rest ih =>
    by_cases hp : p.1.1 = lvl ∧ p.1.2 = id
    · rw [recGet, if_pos hp] at h
      exact absurd h (by simp)
    · rw [recGet, if_neg hp] at h
      rw [recDel, if_neg hp, ih h]

theorem recGet_mem (m : RecMap) (lvl : MemoryLevel) (id : String)
    (e : MemoryEntry) (h : recGet m lvl id = some e) : ((lvl, id), e) ∈ m := by
  induction m with
  | nil => simp [recGet] at h
  | cons p rest ih =>
    by_cases hp : p.1.1 = lvl ∧ p.1.2 = id
    · rw [recGet, if_pos hp] at h
      have hkey : p.1 = (lvl, id) := Prod.ext hp.1 hp.2
      have : p = ((lvl, id), e) := by
        have := Option.some.inj h
        rw [← hkey, ← this]
      simp [← this]
    · rw [recGet, if_neg hp] at h
      exact List.mem_cons_of_mem _ (ih h)

theorem recGet_recDel_self (m : RecMap) (lvl : MemoryLevel) (id : String)
    (h : (m.map Prod.fst).Nodup) : recGet (recDel m lvl id) lvl id = none := by
  induction m with
  | nil => simp [recDel, recGet]
  | cons p rest ih =>
    rw [List.map_cons, List.nodup_cons] at h
    by_cases hp : p.1.1 = lvl ∧ p.1.2 = id
    · rw [recDel, if_pos hp]
      cases hg : recGet rest lvl id with
      | none => rfl
      | some e =>
        exfalso
        apply h.1
        have hkey : p.1 = (lvl, id) := Prod.ext hp.1 hp.2
        rw [hkey]
        exact List.mem_map.mpr ⟨((lvl, id), e), recGet_mem rest lvl id e hg, rfl⟩
    · rw [recDel, if_neg hp, recGet, if_neg hp]
      exact ih h.2

theorem recGet_recDel_other (m : RecMap) (lvl lvl2 : MemoryLevel)
    (id id2 : String) (h : ¬(lvl2 = lvl ∧ id2 = id)) :
    recGet (recDel m lvl id) lvl2 id2 = recGet m lvl2 id2 := by
  induction m with
  | nil => simp [recDel]
  | cons p rest ih =>
    by_cases hp : p.1.1 = lvl ∧ p.1.2 = id
    · rw [recDel, if_pos hp]
      have hp2 : ¬(p.1.1 = lvl2 ∧ p.1.2 = id2) := by
        rintro ⟨ha, hb⟩
        exact h ⟨hp.1 ▸ ha.symm ▸ rfl, hp.2 ▸ hb.symm ▸ rfl⟩
      rw [recGet, if_neg hp2]
    · rw [recDel, if_neg hp]
      by_cases hp2 : p.1.1 = lvl2 ∧ p.1.2 = id2
      · rw [recGet, if_pos hp2, recGet, if_pos hp2]
      · rw [recGet, if_neg hp2, recGet, if_neg hp2]
        exact ih

/-!
Lemmas about the index occurrences required by the stored records.
-/

theorem reqCount_recSet_none (m : RecMap) (lvl : MemoryLevel) (rid : String)
    (e : MemoryEntry) (mult : MemoryEntry → String → Nat) (k id : String)
    (h : recGet m lvl rid = none) :
    reqCount mult k id (recSet m lvl rid e)
      = reqCount mult k id m + (if rid = id then mult e k else 0) := by
  induction m with
  | nil => simp [recSet, reqCount]
  | cons p rest ih =>
    by_cases hp : p.1.1 = lvl ∧ p.1.2 = rid
    · rw [recGet, if_pos hp] at h
      exact absurd h (by simp)
    · rw [recGet, if_neg hp] at h
      rw [recSet, if_neg hp, reqCount, reqCount, ih h]
      omega

theorem reqCount_recSet_some (m : RecMap) (lvl : MemoryLevel) (rid : String)
    (e old : MemoryEntry) (mult : MemoryEntry → String → Nat) (k id : String)
    (h : recGet m lvl rid = some old) :
    reqCount mult k id (recSet m lvl rid e) + (if rid = id then mult old k else 0)
      = reqCount mult k id m + (if rid = id then mult e k else 0) := by
  induction m with
  | nil => simp [recGet] at h
  | cons p rest ih =>
    by_cases hp : p.1.1 = lvl ∧ p.1.2 = rid
    · rw [recGet, if_pos hp] at h
      have hold : p.2 = old := Option.some.inj h
      rw [recSet, if_pos hp, reqCount, reqCount, ← hold, hp.2]
      simp
      omega
    · rw [recGet, if_neg hp] at h
      rw [recSet, if_neg hp, reqCount, reqCount]
      have := ih h
      omega

theorem reqCount_recDel_some (m : RecMap) (lvl : MemoryLevel) (id0 : String)
    (e : MemoryEntry) (mult : MemoryEntry → String → Nat) (k id : String)
    (h : recGet m lvl id0 = some e) :
    reqCount mult k id (recDel m lvl id0) + (if id0 = id then mult e k else 0)
      = reqCount mult k id m := by
  induction m with
  | nil => simp [recGet] at h
  | cons p rest ih =>
    by_cases hp : p.1.1 = lvl ∧ p.1.2 = id0
    · rw [recGet, if_pos hp] at h
      have he : p.2 = e := Option.some.inj h
      rw [recDel, if_pos hp, reqCount, ← he, hp.2]
      omega
    · rw [recGet, if_neg hp] at h
      rw [recDel, if_neg hp, reqCount, reqCount]
      have := ih h
      omega

theorem reqCount_recDel_le (m : RecMap) (lvl : MemoryLevel) (id0 : String)
    (mult : MemoryEntry → String → Nat) (k id : String) :
    reqCount mult k id (recDel m lvl id0) ≤ reqCount mult k id m := by
  cases h : recGet m lvl id0 with
  | none => rw [recDel_of_get_none m lvl id0 h]
  | some e =>
    have := reqCount_recDel_some m lvl id0 e mult k id h
    omega

theorem le_reqCount_of_mem (m : RecMap) (mult : MemoryEntry → String → Nat)
    (k id : String) (p : (MemoryLevel × String) × MemoryEntry)
    (hp : p ∈ m) (hid : p.1.2 = id) : mult p.2 k ≤ reqCount mult k id m := by
  induction m with
  | nil => simp at hp
  | cons q rest ih =>
    rcases List.mem_cons.mp hp with h1 | h2
    · rw [← h1, reqCount, hid]
      simp
    · rw [reqCount]
      have := ih h2
      omega

/-!
Characterisations of the store operations.
-/

theorem loadEntry_zero (s : StoreState) (now : Int) (lvl : MemoryLevel)
    (id : String) : loadEntry 0 s now lvl id = (none, s) := rfl

theorem deleteEntry_zero (s : StoreState) (now : Int) (lvl : MemoryLevel)
    (id : String) : deleteEntry 0 s now lvl id = (false, s) := rfl

theorem loadEntry_succ (f : Nat) (s : StoreState) (now : Int)
    (lvl : MemoryLevel) (id : String) :
    loadEntry (f + 1) s now lvl id
      = match recGet s.records lvl id with
        | none => (none, s)
        | some e =>
          match e.isExpired now with
          | .error _ => (none, s)
          | .ok true => (none, (deleteEntry f s now lvl id).2)
          | .ok false => (some e, s) := rfl

theorem deleteEntry_succ (f : Nat) (s : StoreState) (now : Int)
    (lvl : MemoryLevel) (id : String) :
    deleteEntry (f + 1) s now lvl id
      = match loadEntry f s now lvl id with
        | (some e, s1) =>
          match updateIndicesRemove e s1 with
          | .ok s2 => (true, { s2 with records := recDel s2.records lvl id })
          | .error s2 => (false, s2)
        | (none, s1) => (true, { s1 with records := recDel s1.records lvl id }) := rfl

theorem loadEntry_two_none (s : StoreState) (now : Int) (lvl : MemoryLevel)
    (id : String) (hrec : recGet s.records lvl id = none) :
    loadEntry 2 s now lvl id = (none, s) := by
  rw [show (2 : Nat) = 1 + 1 from rfl, loadEntry_succ, hrec]

theorem loadEntry_two_err (s : StoreState) (now : Int) (lvl : MemoryLevel)
    (id : String) (e : MemoryEntry) (hrec : recGet s.records lvl id = some e)
    (hexp : e.isExpired now = .error ()) :
    loadEntry 2 s now lvl id = (none, s) := by
  rw [show (2 : Nat) = 1 + 1 from rfl, loadEntry_succ, hrec]
  simp only [hexp]

theorem loadEntry_two_expired (s : StoreState) (now : Int) (lvl : MemoryLevel)
    (id : String) (e : MemoryEntry) (hrec : recGet s.records lvl id = some e)
    (hexp : e.isExpired now = .ok true) :
    loadEntry 2 s now lvl id
      = (none, { s with records := recDel s.records lvl id }) := by
  rw [show (2 : Nat) = 1 + 1 from rfl, loadEntry_succ, hrec]
  simp only [hexp]
  rw [show (1 : Nat) = 0 + 1 from rfl, deleteEntry_succ, loadEntry_zero]

theorem loadEntry_two_live (s : StoreState) (now : Int) (lvl : MemoryLevel)
    (id : String) (e : MemoryEntry) (hrec : recGet s.records lvl id = some e)
    (hexp : e.isExpired now = .ok false) :
    loadEntry 2 s now lvl id = (some e, s) := by
  rw [show (2 : Nat) = 1 + 1 from rfl, loadEntry_succ, hrec]
  simp only [hexp]

theorem deleteEntry_two_none (s : StoreState) (now : Int) (lvl : MemoryLevel)
    (id : String) (hrec : recGet s.records lvl id = none) :
    deleteEntry 2 s now lvl id = (true, s) := by
  rw [show (2 : Nat) = 1 + 1 from rfl, deleteEntry_succ,
    show (1 : Nat) = 0 + 1 from rfl, loadEntry_succ, hrec]
  simp only [recDel_of_get_none s.records lvl id hrec]

theorem deleteEntry_two_err (s : StoreState) (now : Int) (lvl : MemoryLevel)
    (id : String) (e : MemoryEntry) (hrec : recGet s.records lvl id = some e)
    (hexp : e.isExpired now = .error ()) :
    deleteEntry 2 s now lvl id
      = (true, { s with records := recDel s.records lvl id }) := by
  rw [show (2 : Nat) = 1 + 1 from rfl, deleteEntry_succ,
    show (1 : Nat) = 0 + 1 from rfl, loadEntry_succ, hrec]
  simp only [hexp]

theorem deleteEntry_two_expired (s : StoreState) (now : Int) (lvl : MemoryLevel)
    (id : String) (e : MemoryEntry) (hrec : recGet s.records lvl id = some e)
    (hexp : e.isExpired now = .ok true) :
    deleteEntry 2 s now lvl id
      = (true, { s with records := recDel s.records lvl id }) := by
  rw [show (2 : Nat) = 1 + 1 from rfl, deleteEntry_succ,
    show (1 : Nat) = 0 + 1 from rfl, loadEntry_succ, hrec]
  simp only [hexp, deleteEntry_zero]

theorem deleteEntry_two_live (s : StoreState) (now : Int) (lvl : MemoryLevel)
    (id : String) (e : MemoryEntry) (hrec : recGet s.records lvl id = some e)
    (hexp : e.isExpired now = .ok false) :
    deleteEntry 2 s now lvl id
      = match updateIndicesRemove e s with
        | .ok s2 => (true, { s2 with records := recDel s2.records lvl id })
        | .error s2 => (false, s2) := by
  rw [show (2 : Nat) = 1 + 1 from rfl, deleteEntry_succ,
    show (1 : Nat) = 0 + 1 from rfl, loadEntry_succ, hrec]
  simp only [hexp]

theorem loadEntry_some (f : Nat) (s : StoreState) (now : Int)
    (lvl : MemoryLevel) (id : String) (e : MemoryEntry)
    (h : (loadEntry f s now lvl id).1 = some e) :
    recGet s.records lvl id = some e ∧ e.isExpired now = .ok false
      ∧ (loadEntry f s now lvl id).2 = s := by
  cases f with
  | zero => rw [loadEntry_zero] at h; simp at h
  | succ f =>
    rw [loadEntry_succ] at h ⊢
    cases hrec : recGet s.records lvl id with
    | none => rw [hrec] at h; simp at h
    | some e2 =>
      rw [hrec] at h
      cases hexp : e2.isExpired now with
      | error u => simp [hexp] at h
      | ok b =>
        cases b
        · simp [hexp] at h
          subst h
          exact ⟨rfl, hexp, by simp [hexp]⟩
        · simp [hexp] at h

/-!
Effect of the index add and remove actions on occurrence counts.
-/

theorem updateIndicesAdd_records (e : MemoryEntry) (s : StoreState) :
    (updateIndicesAdd e s).records = s.records := rfl

theorem updateIndicesAdd_sessions (e : MemoryEntry) (s : StoreState) :
    (updateIndicesAdd e s).sessions
      = match sessionKeyOf e with
        | some k => idxAdd s.sessions k e.id
        | none => s.sessions := rfl

theorem updateIndicesAdd_tags (e : MemoryEntry) (s : StoreState) :
    (updateIndicesAdd e s).tags = addTags s.tags e.data.metaTags e.id := rfl

theorem updateIndicesAdd_sources (e : MemoryEntry) (s : StoreState) :
    (updateIndicesAdd e s).sources = idxAdd s.sources (sourceKey e) e.id := rfl

theorem sessions_count_add (e : MemoryEntry) (s : StoreState) (k x : String) :
    idxCount (updateIndicesAdd e s).sessions k x
      = idxCount s.sessions k x + (if x = e.id then keyMultSessions e k else 0) := by
  rw [updateIndicesAdd_sessions]
  cases hsk : sessionKeyOf e with
  | none => simp [keyMultSessions, hsk]
  | some key =>
    rw [idxCount_idxAdd]
    simp only [keyMultSessions, hsk]
    by_cases hx : x = e.id
    · by_cases hkk : k = key
      · simp [hx, hkk]
      · have h2 : key ≠ k := fun hh => hkk hh.symm
        simp [hx, hkk, h2]
    · simp [hx]

theorem tags_count_add (e : MemoryEntry) (s : StoreState) (k x : String) :
    idxCount (updateIndicesAdd e s).tags k x
      = idxCount s.tags k x + (if x = e.id then keyMultTags e k else 0) := by
  rw [updateIndicesAdd_tags, idxCount_addTags]
  rfl

theorem sources_count_add (e : MemoryEntry) (s : StoreState) (k x : String) :
    idxCount (updateIndicesAdd e s).sources k x
      = idxCount s.sources k x + (if x = e.id then keyMultSources e k else 0) := by
  rw [updateIndicesAdd_sources, idxCount_idxAdd]
  simp only [keyMultSources]
  by_cases hx : x = e.id
  · by_cases hkk : k = sourceKey e
    · simp [hx, hkk]
    · have h2 : sourceKey e ≠ k := fun hh => hkk hh.symm
      simp [hx, hkk, h2]
  · simp [hx]

theorem updateIndicesRemove_ok (e : MemoryEntry) (s : StoreState)
    (hsess : ∀ k, keyMultSessions e k ≤ idxCount s.sessions k e.id)
    (htags : ∀ k, keyMultTags e k ≤ idxCount s.tags k e.id)
    (hsrc : ∀ k, keyMultSources e k ≤ idxCount s.sources k e.id) :
    ∃ s2, updateIndicesRemove e s = .ok s2
      ∧ s2.records = s.records
      ∧ (∀ k x, idxCount s2.sessions k x
          + (if x = e.id then keyMultSessions e k else 0) = idxCount s.sessions k x)
      ∧ (∀ k x, idxCount s2.tags k x
          + (if x = e.id then keyMultTags e k else 0) = idxCount s.tags k x)
      ∧ (∀ k x, idxCount s2.sources k x
          + (if x = e.id then keyMultSources e k else 0) = idxCount s.sources k x) := by
  have hsrc1 : 1 ≤ idxCount s.sources (sourceKey e) e.id := by
    have := hsrc (sourceKey e)
    simpa [keyMultSources] using this
  have htags1 : ∀ k, occCount e.data.metaTags k ≤ idxCount s.tags k e.id := htags
  cases hsk : sessionKeyOf e with
  | none =>
    obtain ⟨tg, hrt, hcnt⟩ := removeTags_spec e.data.metaTags s.tags e.id htags1
    obtain ⟨src, hrs, hcnts⟩ := idxRemove_spec s.sources (sourceKey e) e.id hsrc1
    refine ⟨{ s with tags := tg, sources := src }, ?_, rfl, ?_, ?_, ?_⟩
    · rw [updateIndicesRemove, hsk]
      simp [hrt, hrs]
    · intro k x
      simp [keyMultSessions, hsk]
    · intro k x
      have := hcnt k x
      simpa [keyMultTags] using this
    · intro k x
      have := hcnts k x
      by_cases hx : x = e.id
      · by_cases hkk : k = sourceKey e
        · simp [keyMultSources, hx, hkk] at this ⊢
          omega
        · have h2 : sourceKey e ≠ k := fun hh => hkk hh.symm
          simp [keyMultSources, hx, hkk, h2] at this ⊢
          omega
      · simp [hx] at this ⊢
        omega
  | some key =>
    have hs1 : 1 ≤ idxCount s.sessions key e.id := by
      have := hsess key
      simpa [keyMultSessions, hsk] using this
    obtain ⟨sess, hrsess, hcsess⟩ := idxRemove_spec s.sessions key e.id hs1
    obtain ⟨tg, hrt, hcnt⟩ := removeTags_spec e.data.metaTags s.tags e.id htags1
    obtain ⟨src, hrs, hcnts⟩ := idxRemove_spec s.sources (sourceKey e) e.id hsrc1
    refine ⟨{ s with sessions := sess, tags := tg, sources := src }, ?_, rfl, ?_, ?_, ?_⟩
    · rw [updateIndicesRemove, hsk]
      simp [hrsess, hrt, hrs]
    · intro k x
      have := hcsess k x
      by_cases hx : x = e.id
      · by_cases hkk : k = key
        · simp [keyMultSessions, hsk, hx, hkk] at this ⊢
          omega
        · have h2 : key ≠ k := fun hh => hkk hh.symm
          simp [keyMultSessions, hsk, hx, hkk, h2] at this ⊢
          omega
      · simp [hx] at this ⊢
        omega
    · intro k x
      have := hcnt k x
      simpa [keyMultTags] using this
    · intro k x
      have := hcnts k x
      by_cases hx : x = e.id
      · by_cases hkk : k = sourceKey e
        · simp [keyMultSources, hx, hkk] at this ⊢
          omega
        · have h2 : sourceKey e ≠ k := fun hh => hkk hh.symm
          simp [keyMultSources, hx, hkk, h2] at this ⊢
          omega
      · simp [hx] at this ⊢
        omega

/-!
The reachable-state invariant is preserved by every store operation.
-/

theorem InvC_empty : InvC StoreState.empty := by
  refine ⟨?_, ?_, ?_, ?_, ?_⟩
  · intro p hp; simp [StoreState.empty] at hp
  · simp [StoreState.empty]
  all_goals intro k id; simp [StoreState.empty, reqCount]

theorem InvC_recDelOnly (s : StoreState) (lvl : MemoryLevel) (id : String)
    (h : InvC s) : InvC { s with records := recDel s.records lvl id } := by
  obtain ⟨hwf, hnd, hsess, htags, hsrc⟩ := h
  refine ⟨?_, ?_, ?_, ?_, ?_⟩
  · intro p hp
    exact hwf p ((recDel_sublist s.records lvl id).subset hp)
  · exact recDel_nodup _ _ _ hnd
  · intro k x
    exact le_trans (reqCount_recDel_le _ _ _ _ _ _) (hsess k x)
  · intro k x
    exact le_trans (reqCount_recDel_le _ _ _ _ _ _) (htags k x)
  · intro k x
    exact le_trans (reqCount_recDel_le _ _ _ _ _ _) (hsrc k x)

theorem InvC_save (s : StoreState) (e : MemoryEntry) (h : InvC s) :
    InvC (saveEntry s e).2 := by
  obtain ⟨hwf, hnd, hsess, htags, hsrc⟩ := h
  refine ⟨?_, ?_, ?_, ?_, ?_⟩
  · intro p hp
    rcases mem_recSet s.records e.level e.id e p hp with h1 | h2
    · rw [h1]
    · exact hwf p h2
  · exact recSet_nodup _ _ _ _ hnd
  · intro k x
    rw [show (saveEntry s e).2.sessions
        = (updateIndicesAdd e { s with records := recSet s.records e.level e.id e }).sessions
      from rfl]
    rw [sessions_count_add]
    have hb := hsess k x
    cases hrec : recGet s.records e.level e.id with
    | none =>
      have hr := reqCount_recSet_none s.records e.level e.id e keyMultSessions k x hrec
      show reqCount keyMultSessions k x (recSet s.records e.level e.id e) ≤ _
      by_cases hx : x = e.id
      · simp [hx] at hr hb ⊢; omega
      · have h2 : ¬(e.id = x) := fun hh => hx hh.symm
        simp [hx, h2] at hr ⊢; omega
    | some old =>
      have hr := reqCount_recSet_some s.records e.level e.id e old keyMultSessions k x hrec
      show reqCount keyMultSessions k x (recSet s.records e.level e.id e) ≤ _
      by_cases hx : x = e.id
      · simp [hx] at hr hb ⊢; omega
      · have h2 : ¬(e.id = x) := fun hh => hx hh.symm
        simp [hx, h2] at hr ⊢; omega
  · intro k x
    rw [show (saveEntry s e).2.tags
        = (updateIndicesAdd e { s with records := recSet s.records e.level e.id e }).tags
      from rfl]
    rw [tags_count_add]
    have hb := htags k x
    cases hrec : recGet s.records e.level e.id with
    | none =>
      have hr := reqCount_recSet_none s.records e.level e.id e keyMultTags k x hrec
      show reqCount keyMultTags k x (recSet s.records e.level e.id e) ≤ _
      by_cases hx : x = e.id
      · simp [hx] at hr hb ⊢; omega
      · have h2 : ¬(e.id = x) := fun hh => hx hh.symm
        simp [hx, h2] at hr ⊢; omega
    | some old =>
      have hr := reqCount_recSet_some s.records e.level e.id e old keyMultTags k x hrec
      show reqCount keyMultTags k x (recSet s.records e.level e.id e) ≤ _
      by_cases hx : x = e.id
      · simp [hx] at hr hb ⊢; omega
      · have h2 : ¬(e.id = x) := fun hh => hx hh.symm
        simp [hx, h2] at hr ⊢; omega
  · intro k x
    rw [show (saveEntry s e).2.sources
        = (updateIndicesAdd e { s with records := recSet s.records e.level e.id e }).sources
      from rfl]
    rw [sources_count_add]
    have hb := hsrc k x
    cases hrec : recGet s.records e.level e.id with
    | none =>
      have hr := reqCount_recSet_none s.records e.level e.id e keyMultSources k x hrec
      show reqCount keyMultSources k x (recSet s.records e.level e.id e) ≤ _
      by_cases hx : x = e.id
      · simp [hx] at hr hb ⊢; omega
      · have h2 : ¬(e.id = x) := fun hh => hx hh.symm
        simp [hx, h2] at hr ⊢; omega
    | some old =>
      have hr := reqCount_recSet_some s.records e.level e.id e old keyMultSources k x hrec
      show reqCount keyMultSources k x (recSet s.records e.level e.id e) ≤ _
      by_cases hx : x = e.id
      · simp [hx] at hr hb ⊢; omega
      · have h2 : ¬(e.id = x) := fun hh => hx hh.symm
        simp [hx, h2] at hr ⊢; omega

theorem InvC_delete (s : StoreState) (now : Int) (lvl : MemoryLevel)
    (id : String) (h : InvC s) :
    (deleteEntry 2 s now lvl id).1 = true ∧ InvC (deleteEntry 2 s now lvl id).2 := by
  cases hrec : recGet s.records lvl id with
  | none =>
    rw [deleteEntry_two_none s now lvl id hrec]
    exact ⟨rfl, h⟩
  | some e =>
    cases hexp : e.isExpired now with
    | error u =>
      cases u
      rw [deleteEntry_two_err s now lvl id e hrec hexp]
      exact ⟨rfl, InvC_recDelOnly s lvl id h⟩
    | ok b =>
      cases b
      · have hwf := h.1
        have hid : e.id = id := (hwf _ (recGet_mem _ _ _ _ hrec)).symm
        have h1 : ∀ k, keyMultSessions e k ≤ idxCount s.sessions k e.id := by
          intro k
          rw [hid]
          exact le_trans
            (le_reqCount_of_mem s.records keyMultSessions k id _
              (recGet_mem _ _ _ _ hrec) rfl)
            (h.2.2.1 k id)
        have h2 : ∀ k, keyMultTags e k ≤ idxCount s.tags k e.id := by
          intro k
          rw [hid]
          exact le_trans
            (le_reqCount_of_mem s.records keyMultTags k id _
              (recGet_mem _ _ _ _ hrec) rfl)
            (h.2.2.2.1 k id)
        have h3 : ∀ k, keyMultSources e k ≤ idxCount s.sources k e.id := by
          intro k
          rw [hid]
          exact le_trans
            (le_reqCount_of_mem s.records keyMultSources k id _
              (recGet_mem _ _ _ _ hrec) rfl)
            (h.2.2.2.2 k id)
        obtain ⟨s2, hok, hrecs, hcs, hct, hcsrc⟩ := updateIndicesRemove_ok e s h1 h2 h3
        rw [deleteEntry_two_live s now lvl id e hrec hexp, hok]
        refine ⟨rfl, ?_, ?_, ?_, ?_, ?_⟩
        · intro p hp
          simp only [hrecs] at hp
          exact h.1 p ((recDel_sublist s.records lvl id).subset hp)
        · simp only [hrecs]
          exact recDel_nodup _ _ _ h.2.1
        · intro k x
          have hc := hcs k x
          have hr := reqCount_recDel_some s.records lvl id e keyMultSessions k x hrec
          have hb := h.2.2.1 k x
          rw [hid] at hc
          show reqCount keyMultSessions k x (recDel s2.records lvl id) ≤ idxCount s2.sessions k x
          rw [hrecs]
          by_cases hx : x = id
          · simp [hx] at hc hr hb ⊢; omega
          · have hne : ¬(id = x) := fun hh => hx hh.symm
            simp [hx, hne] at hc hr ⊢; omega
        · intro k x
          have hc := hct k x
          have hr := reqCount_recDel_some s.records lvl id e keyMultTags k x hrec
          have hb := h.2.2.2.1 k x
          rw [hid] at hc
          show reqCount keyMultTags k x (recDel s2.records lvl id) ≤ idxCount s2.tags k x
          rw [hrecs]
          by_cases hx : x = id
          · simp [hx] at hc hr hb ⊢; omega
          · have hne : ¬(id = x) := fun hh => hx hh.symm
            simp [hx, hne] at hc hr ⊢; omega
        · intro k x
          have hc := hcsrc k x
          have hr := reqCount_recDel_some s.records lvl id e keyMultSources k x hrec
          have hb := h.2.2.2.2 k x
          rw [hid] at hc
          show reqCount keyMultSources k x (recDel s2.records lvl id) ≤ idxCount s2.sources k x
          rw [hrecs]
          by_cases hx : x = id
          · simp [hx] at hc hr hb ⊢; omega
          · have hne : ¬(id = x) := fun hh => hx hh.symm
            simp [hx, hne] at hc hr ⊢; omega
      · rw [deleteEntry_two_expired s now lvl id e hrec hexp]
        exact ⟨rfl, InvC_recDelOnly s lvl id h⟩

theorem InvC_load (s : StoreState) (now : Int) (lvl : MemoryLevel)
    (id : String) (h : InvC s) : InvC (loadEntry 2 s now lvl id).2 := by
  cases hrec : recGet s.records lvl id with
  | none => rw [loadEntry_two_none s now lvl id hrec]; exact h
  | some e =>
    cases hexp : e.isExpired now with
    | error u =>
      cases u
      rw [loadEntry_two_err s now lvl id e hrec hexp]
      exact h
    | ok b =>
      cases b
      · rw [loadEntry_two_live s now lvl id e hrec hexp]; exact h
      · rw [loadEntry_two_expired s now lvl id e hrec hexp]
        exact InvC_recDelOnly s lvl id h

theorem InvC_apply (s : StoreState) (op : Op) (h : InvC s) :
    InvC (applyOp s op) := by
  cases op with
  | put e => exact InvC_save s e h
  | del now lvl id => exact (InvC_delete s now lvl id h).2
  | get now lvl id => exact InvC_load s now lvl id h

theorem InvC_foldl (ops : List Op) (s : StoreState) (h : InvC s) :
    InvC (ops.foldl applyOp s) := by
  induction ops generalizing s with
  | nil => exact h
  | cons op rest ih => exact ih _ (InvC_apply s op h)

theorem InvC_run (ops : List Op) : InvC (runOps ops) :=
  InvC_foldl ops StoreState.empty InvC_empty

/-!
Fuel stability: every fuel value of at least 2 gives the expire-on-read
recursion the same result, so the fuel-2 versions used by `applyOp` are the
fixed point of the Python recursion.
-/

theorem recDel_recDel (m : RecMap) (lvl : MemoryLevel) (id : String)
    (hnd : (m.map Prod.fst).Nodup) :
    recDel (recDel m lvl id) lvl id = recDel m lvl id :=
  recDel_of_get_none _ _ _ (recGet_recDel_self m lvl id hnd)

theorem loadEntry_succ_expired (f : Nat) (s : StoreState) (now : Int)
    (lvl : MemoryLevel) (id : String) (e : MemoryEntry)
    (hrec : recGet s.records lvl id = some e)
    (hexp : e.isExpired now = .ok true) :
    loadEntry (f + 1) s now lvl id = (none, (deleteEntry f s now lvl id).2) := by
  rw [loadEntry_succ, hrec]
  simp only [hexp]

theorem loadEntry_succ_live (f : Nat) (s : StoreState) (now : Int)
    (lvl : MemoryLevel) (id : String) (e : MemoryEntry)
    (hrec : recGet s.records lvl id = some e)
    (hexp : e.isExpired now = .ok false) :
    loadEntry (f + 1) s now lvl id = (some e, s) := by
  rw [loadEntry_succ, hrec]
  simp only [hexp]

theorem loadEntry_succ_err (f : Nat) (s : StoreState) (now : Int)
    (lvl : MemoryLevel) (id : String) (e : MemoryEntry)
    (hrec : recGet s.records lvl id = some e)
    (hexp : e.isExpired now = .error ()) :
    loadEntry (f + 1) s now lvl id = (none, s) := by
  rw [loadEntry_succ, hrec]
  simp only [hexp]

theorem loadEntry_succ_none (f : Nat) (s : StoreState) (now : Int)
    (lvl : MemoryLevel) (id : String)
    (hrec : recGet s.records lvl id = none) :
    loadEntry (f + 1) s now lvl id = (none, s) := by
  rw [loadEntry_succ, hrec]

theorem deleteEntry_succ_of_none (f : Nat) (s s1 : StoreState) (now : Int)
    (lvl : MemoryLevel) (id : String)
    (hl : loadEntry f s now lvl id = (none, s1)) :
    deleteEntry (f + 1) s now lvl id
      = (true, { s1 with records := recDel s1.records lvl id }) := by
  rw [deleteEntry_succ, hl]

theorem deleteEntry_succ_of_some (f : Nat) (s s1 : StoreState) (now : Int)
    (lvl : MemoryLevel) (id : String) (e : MemoryEntry)
    (hl : loadEntry f s now lvl id = (some e, s1)) :
    deleteEntry (f + 1) s now lvl id
      = match updateIndicesRemove e s1 with
        | .ok s2 => (true, { s2 with records := recDel s2.records lvl id })
        | .error s2 => (false, s2) := by
  rw [deleteEntry_succ, hl]

theorem deleteEntry_expired_any (s : StoreState) (now : Int)
    (lvl : MemoryLevel) (id : String) (e : MemoryEntry)
    (hrec : recGet s.records lvl id = some e)
    (hexp : e.isExpired now = .ok true)
    (hnd : (s.records.map Prod.fst).Nodup) (f : Nat) :
    deleteEntry (f + 1) s now lvl id
      = (true, { s with records := recDel s.records lvl id }) := by
  induction f using Nat.strong_induction_on with
  | _ f ih =>
    cases f with
    | zero => rw [deleteEntry_succ_of_none 0 s s now lvl id (loadEntry_zero s now lvl id)]
    | succ g =>
      cases g with
      | zero =>
        have hl : loadEntry 1 s now lvl id = (none, s) := by
          rw [loadEntry_succ_expired 0 s now lvl id e hrec hexp, deleteEntry_zero]
        rw [deleteEntry_succ_of_none 1 s s now lvl id hl]
      | succ g2 =>
        have hd := ih g2 (by omega)
        have hl : loadEntry (g2 + 2) s now lvl id
            = (none, { s with records := recDel s.records lvl id }) := by
          rw [loadEntry_succ_expired (g2 + 1) s now lvl id e hrec hexp, hd]
        rw [deleteEntry_succ_of_none (g2 + 2) s _ now lvl id hl]
        show (true, _) = _
        have : ({ s with records := recDel s.records lvl id } : StoreState).records
            = recDel s.records lvl id := rfl
        rw [this, recDel_recDel s.records lvl id hnd]

theorem loadEntry_fuel_stable (s : StoreState) (now : Int) (lvl : MemoryLevel)
    (id : String) (hnd : (s.records.map Prod.fst).Nodup) (f : Nat) :
    loadEntry (f + 2) s now lvl id = loadEntry 2 s now lvl id := by
  cases hrec : recGet s.records lvl id with
  | none =>
    rw [loadEntry_succ_none (f + 1) s now lvl id hrec,
      loadEntry_two_none s now lvl id hrec]
  | some e =>
    cases hexp : e.isExpired now with
    | error u =>
      cases u
      rw [loadEntry_succ_err (f + 1) s now lvl id e hrec hexp,
        loadEntry_two_err s now lvl id e hrec hexp]
    | ok b =>
      cases b
      · rw [loadEntry_succ_live (f + 1) s now lvl id e hrec hexp,
          loadEntry_two_live s now lvl id e hrec hexp]
      · rw [loadEntry_succ_expired (f + 1) s now lvl id e hrec hexp,
          deleteEntry_expired_any s now lvl id e hrec hexp hnd f,
          loadEntry_two_expired s now lvl id e hrec hexp]

theorem deleteEntry_fuel_stable (s : StoreState) (now : Int) (lvl : MemoryLevel)
    (id : String) (hnd : (s.records.map Prod.fst).Nodup) (f : Nat) :
    deleteEntry (f + 2) s now lvl id = deleteEntry 2 s now lvl id := by
  cases hrec : recGet s.records lvl id with
  | none =>
    rw [deleteEntry_succ_of_none (f + 1) s s now lvl id
        (loadEntry_succ_none f s now lvl id hrec),
      deleteEntry_two_none s now lvl id hrec,
      recDel_of_get_none s.records lvl id hrec]
  | some e =>
    cases hexp : e.isExpired now with
    | error u =>
      cases u
      rw [deleteEntry_succ_of_none (f + 1) s s now lvl id
          (loadEntry_succ_err f s now lvl id e hrec hexp),
        deleteEntry_two_err s now lvl id e hrec hexp]
    | ok b =>
      cases b
      · rw [deleteEntry_succ_of_some (f + 1) s s now lvl id e
            (loadEntry_succ_live f s now lvl id e hrec hexp),
          deleteEntry_two_live s now lvl id e hrec hexp]
      · cases f with
        | zero => rfl
        | succ g =>
          have hl : loadEntry (g + 2) s now lvl id
              = (none, { s with records := recDel s.records lvl id }) := by
            rw [loadEntry_succ_expired (g + 1) s now lvl id e hrec hexp,
              deleteEntry_expired_any s now lvl id e hrec hexp hnd g]
          rw [deleteEntry_succ_of_none (g + 2) s _ now lvl id hl,
            deleteEntry_two_expired s now lvl id e hrec hexp]
          show (true, _) = _
          have : ({ s with records := recDel s.records lvl id } : StoreState).records
              = recDel s.records lvl id := rfl
          rw [this, recDel_recDel s.records lvl id hnd]

/-!
Sortedness of the final query ordering.  The sort key is the raw timestamp
string under Python string comparison; the lemmas establish that this
comparison is a strict weak order and that the insertion pass is descending
with respect to it.
-/

theorem strLtChars_asymm (l1 l2 : List Char) (h : strLtChars l1 l2 = true) :
    strLtChars l2 l1 = false := by
  induction l1 generalizing l2 with
  | nil =>
    cases l2 with
    | nil => simp [strLtChars] at h
    | cons c2 r2 => simp [strLtChars]
  | cons c1 r1 ih =>
    cases l2 with
    | nil => simp [strLtChars] at h
    | cons c2 r2 =>
      by_cases hc : c1 = c2
      · subst hc
        simp [strLtChars] at h ⊢
        exact ih r2 h
      · have hne : c2 ≠ c1 := fun hh => hc hh.symm
        simp [strLtChars, hc, hne] at h ⊢
        exact le_of_lt h

theorem strLtChars_trans (l1 l2 l3 : List Char) (h12 : strLtChars l1 l2 = true)
    (h23 : strLtChars l2 l3 = true) : strLtChars l1 l3 = true := by
  induction l1 generalizing l2 l3 with
  | nil =>
    cases l3 with
    | nil =>
      cases l2 with
      | nil => simp [strLtChars] at h12
      | cons c2 r2 => simp [strLtChars] at h23
    | cons c3 r3 => simp [strLtChars]
  | cons c1 r1 ih =>
    cases l2 with
    | nil => simp [strLtChars] at h12
    | cons c2 r2 =>
      cases l3 with
      | nil => simp [strLtChars] at h23
      | cons c3 r3 =>
        by_cases h1c : c1 = c2
        · subst h1c
          by_cases h2c : c1 = c3
          · subst h2c
            simp [strLtChars] at h12 h23 ⊢
            exact ih r2 r3 h12 h23
          · simp [strLtChars, h2c] at h23 ⊢
            exact h23
        · by_cases h2c : c2 = c3
          · subst h2c
            simp [strLtChars, h1c] at h12 ⊢
            exact h12
          · simp [strLtChars, h1c, h2c] at h12 h23
            have h13 : c1 < c3 := lt_trans h12 h23
            have hne : c1 ≠ c3 := ne_of_lt h13
            simp [strLtChars, hne]
            exact h13

theorem strLtChars_connex (l1 l2 : List Char) (h : strLtChars l1 l2 = false)
    (hne : l1 ≠ l2) : strLtChars l2 l1 = true := by
  induction l1 generalizing l2 with
  | nil =>
    cases l2 with
    | nil => exact absurd rfl hne
    | cons c2 r2 => simp [strLtChars] at h
  | cons c1 r1 ih =>
    cases l2 with
    | nil => simp [strLtChars]
    | cons c2 r2 =>
      by_cases hc : c1 = c2
      · subst hc
        simp [strLtChars] at h ⊢
        refine ih r2 h ?_
        intro hr
        exact hne (by rw [hr])
      · have hne2 : c2 ≠ c1 := fun hh => hc hh.symm
        simp [strLtChars, hc, hne2] at h ⊢
        exact lt_of_le_of_ne h hne2

theorem strLe_of_not_strLe (a b : String) (h : strLe a b = false) :
    strLe b a = true := by
  simp only [strLe, strLt, Bool.not_eq_false'] at h
  simp only [strLe, strLt, Bool.not_eq_true']
  exact strLtChars_asymm _ _ h

theorem strLe_trans (a b c : String) (h1 : strLe a b = true)
    (h2 : strLe b c = true) : strLe a c = true := by
  simp only [strLe, strLt, Bool.not_eq_true'] at h1 h2 ⊢
  cases hca : strLtChars c.data a.data with
  | false => rfl
  | true =>
    exfalso
    by_cases hcb : c.data = b.data
    · rw [hcb] at hca
      rw [h1] at hca
      simp at hca
    · have hbc := strLtChars_connex c.data b.data h2 hcb
      have hba := strLtChars_trans b.data c.data a.data hbc hca
      rw [h1] at hba
      simp at hba

theorem mem_sortDescInsert (e x : MemoryEntry) (l : List MemoryEntry)
    (h : x ∈ sortDescInsert e l) : x = e ∨ x ∈ l := by
  induction l with
  | nil =>
    rw [sortDescInsert] at h
    exact Or.inl (List.mem_singleton.mp h)
  | cons y ys ih =>
    rw [sortDescInsert] at h
    by_cases hc : strLe y.timestamp.raw e.timestamp.raw = true
    · rw [if_pos hc] at h
      rcases List.mem_cons.mp h with h1 | h2
      · exact Or.inl h1
      · exact Or.inr h2
    · rw [if_neg hc] at h
      rcases List.mem_cons.mp h with h1 | h2
      · exact Or.inr (by simp [h1])
      · rcases ih h2 with h3 | h4
        · exact Or.inl h3
        · exact Or.inr (List.mem_cons_of_mem _ h4)

theorem sorted_sortDescInsert (e : MemoryEntry) (l : List MemoryEntry)
    (h : List.Pairwise (fun a b : MemoryEntry =>
      strLe b.timestamp.raw a.timestamp.raw = true) l) :
    List.Pairwise (fun a b : MemoryEntry =>
      strLe b.timestamp.raw a.timestamp.raw = true) (sortDescInsert e l) := by
  induction l with
  | nil => simp [sortDescInsert]
  | cons y ys ih =>
    rw [List.pairwise_cons] at h
    rw [sortDescInsert]
    by_cases hc : strLe y.timestamp.raw e.timestamp.raw = true
    · rw [if_pos hc]
      refine List.Pairwise.cons ?_ (List.Pairwise.cons h.1 h.2)
      intro z hz
      rcases List.mem_cons.mp hz with h1 | h2
      · rw [h1]; exact hc
      · exact strLe_trans _ _ _ (h.1 z h2) hc
    · rw [if_neg hc]
      refine List.Pairwise.cons ?_ (ih h.2)
      intro z hz
      rcases mem_sortDescInsert e z ys hz with h1 | h2
      · have hc2 : strLe y.timestamp.raw e.timestamp.raw = false := by
          cases hb : strLe y.timestamp.raw e.timestamp.raw
          · rfl
          · exact absurd hb hc
        rw [h1]
        exact strLe_of_not_strLe _ _ hc2
      · exact h.1 z h2

theorem sorted_sortByTimestampDesc (l : List MemoryEntry) :
    List.Pairwise (fun a b : MemoryEntry =>
      strLe b.timestamp.raw a.timestamp.raw = true)
      (sortByTimestampDesc l) := by
  induction l with
  | nil => simp [sortByTimestampDesc]
  | cons e rest ih =>
    rw [sortByTimestampDesc, List.foldr_cons]
    exact sorted_sortDescInsert e _ ih

/-!
The claims.
-/

/-- Claim C2, code_bug evaluation.  The claim says an entry with
`ttl_seconds = t` is returned by `get` exactly while `now <= created_at + t`.
At the failing input — the entry `entAwareTtl` with `ttl = 3600` and the
offset-aware (trailing `Z`) timestamp format that `save_entry` itself writes,
loaded at `now = 10`, well before the boundary — `load_entry` returns absent:
`is_expired` raises `TypeError` comparing the naive `datetime.now()` with the
offset-aware creation time, and `load_entry` swallows the exception.  The
offset-naive twin `entNaiveTtl` (`ttl = 10`) shows the intended boundary
semantics working: returned at `now = 5` and at the boundary `now = 10`,
absent at `now = 11`. -/
theorem c2_code_eval :
    ((10 : Int) ≤ 0 + 3600)
    ∧ loadEntry 2 (saveEntry StoreState.empty entAwareTtl).2 10
        MemoryLevel.immediate "e1"
        = (none, (saveEntry StoreState.empty entAwareTtl).2)
    ∧ loadEntry 2 (saveEntry StoreState.empty entNaiveTtl).2 5
        MemoryLevel.immediate "e1"
        = (some entNaiveTtl, (saveEntry StoreState.empty entNaiveTtl).2)
    ∧ loadEntry 2 (saveEntry StoreState.empty entNaiveTtl).2 10
        MemoryLevel.immediate "e1"
        = (some entNaiveTtl, (saveEntry StoreState.empty entNaiveTtl).2)
    ∧ (loadEntry 2 (saveEntry StoreState.empty entNaiveTtl).2 11
        MemoryLevel.immediate "e1").1 = none := by
  decide

/-- Claim C3, counterexample.  Indexing is not idempotent set membership:
saving the same entry twice leaves its id listed twice under the source key,
and the store state after the second save differs from the state after the
first. -/
theorem c3_counterexample :
    idxList (runOps [.put entPlain, .put entPlain]).sources (sourceKey entPlain)
      = ["e1", "e1"]
    ∧ runOps [.put entPlain, .put entPlain] ≠ runOps [.put entPlain] := by
  decide

/-- Claim C3, amended.  Re-indexing appends rather than inserting into a set:
a second `save_entry` for the same `(level, id)` increases the occurrence
count of the id under each of its keys by exactly the multiplicity of that
key for the entry (1 for the session and source keys, the tag count for tag
keys). -/
theorem c3_amended (s : StoreState) (e : MemoryEntry) (k : String) :
    idxCount (saveEntry (saveEntry s e).2 e).2.sessions k e.id
      = idxCount (saveEntry s e).2.sessions k e.id + keyMultSessions e k
    ∧ idxCount (saveEntry (saveEntry s e).2 e).2.tags k e.id
      = idxCount (saveEntry s e).2.tags k e.id + keyMultTags e k
    ∧ idxCount (saveEntry (saveEntry s e).2 e).2.sources k e.id
      = idxCount (saveEntry s e).2.sources k e.id + keyMultSources e k := by
  refine ⟨?_, ?_, ?_⟩
  · rw [show (saveEntry (saveEntry s e).2 e).2.sessions
        = (updateIndicesAdd e { (saveEntry s e).2 with
            records := recSet (saveEntry s e).2.records e.level e.id e }).sessions
      from rfl, sessions_count_add]
    simp
  · rw [show (saveEntry (saveEntry s e).2 e).2.tags
        = (updateIndicesAdd e { (saveEntry s e).2 with
            records := recSet (saveEntry s e).2.records e.level e.id e }).tags
      from rfl, tags_count_add]
    simp
  · rw [show (saveEntry (saveEntry s e).2 e).2.sources
        = (updateIndicesAdd e { (saveEntry s e).2 with
            records := recSet (saveEntry s e).2.records e.level e.id e }).sources
      from rfl, sources_count_add]
    simp

/-- Helper for the sweep claim: one level of `clean_expired` never increments
its counter, because `load_entry` never returns an expired entry (it either
evicts it or swallows the expiry-check exception). -/
theorem cleanLevel_acc (lvl : MemoryLevel) (ids : List String) (s : StoreState)
    (now : Int) (acc : Nat) :
    ∃ s2, cleanLevel lvl ids s now acc = .ok (acc, s2) := by
  induction ids generalizing s with
  | nil => exact ⟨s, rfl⟩
  | cons id rest ih =>
    rw [cleanLevel]
    cases hl : loadEntry 2 s now lvl id with
    | mk eOpt s1 =>
      cases eOpt with
      | none => exact ih s1
      | some e =>
        have hexp := (loadEntry_some 2 s now lvl id e (by rw [hl])).2.1
        simp only [hexp]
        exact ih s1

/-- Helper for the sweep claim: the level loop keeps the counter unchanged. -/
theorem cleanLevels_acc (lvls : List MemoryLevel) (s : StoreState) (now : Int)
    (acc : Nat) : ∃ s2, cleanLevels lvls s now acc = .ok (acc, s2) := by
  induction lvls generalizing s with
  | nil => exact ⟨s, rfl⟩
  | cons lvl rest ih =>
    rw [cleanLevels]
    obtain ⟨s2, h2⟩ := cleanLevel_acc lvl (levelIds s lvl) s now acc
    rw [h2]
    exact ih s2

/-- Claim C4, code_bug evaluation.  The sweep does iterate all records of all
levels and applies the expire-on-read check through `load_entry`, but it
never returns the number of entries it removed: because `load_entry` evicts
expired records itself (returning `None`), the guard
`if entry and entry.is_expired()` in `clean_expired` is unreachable and the
returned count is always 0.  Concretely, sweeping a store holding the
expired `entNaiveTtl` at `now = 100` removes the record file yet reports 0. -/
theorem c4_code_eval :
    (∀ (s : StoreState) (now : Int), ∃ r, cleanExpired s now = .ok r ∧ r.1 = 0)
    ∧ (∃ r, cleanExpired (saveEntry StoreState.empty entNaiveTtl).2 100 = .ok r
        ∧ r.1 = 0 ∧ r.2.records = []
        ∧ idxList r.2.tags "A" = ["e1"]
        ∧ idxList r.2.sessions "S" = ["e1"]) := by
  constructor
  · intro s now
    obtain ⟨s2, h2⟩ := cleanLevels_acc MemoryLevel.all s now 0
    exact ⟨(0, s2), h2, rfl⟩
  · exact ⟨(0, sweptState), by rfl, rfl, rfl, by decide, by decide⟩

/-- Claim C7, counterexample.  Put followed immediately by get does not
always return the entry: an entry already past its ttl at read time is
evicted by expire-on-read (first conjunct), and an entry whose ttl is set and
whose timestamp is offset-aware — the format `save_entry` itself writes — is
reported absent even when fresh, because the expiry check raises `TypeError`
(second conjunct). -/
theorem c7_counterexample :
    (loadEntry 2 (saveEntry StoreState.empty entNaiveTtl).2 100
      entNaiveTtl.level entNaiveTtl.id).1 = none
    ∧ (loadEntry 2 (saveEntry StoreState.empty entAwareTtl).2 10
      entAwareTtl.level entAwareTtl.id).1 = none := by
  decide

/-- Claim C7, amended.  For any state and any valid entry whose expire-on-read
check evaluates to not-expired at read time (ttl absent or 0, or an
offset-naive timestamp with `now <= created_at + ttl`), `save_entry` followed
immediately by `load_entry` at the same `(level, id)` returns an entry equal
to the saved one in all fields, with no field rewritten by the store. -/
theorem c7_amended (s : StoreState) (e : MemoryEntry) (now : Int)
    (h : e.isExpired now = .ok false) :
    loadEntry 2 (saveEntry s e).2 now e.level e.id
      = (some e, (saveEntry s e).2) := by
  apply loadEntry_two_live (saveEntry s e).2 now e.level e.id e ?_ h
  show recGet (recSet s.records e.level e.id e) e.level e.id = some e
  exact recGet_recSet_self _ _ _ _

/-- Witness for the amended round-trip claim at a concrete input. -/
theorem c7_amended_witness :
    entPlain.isExpired 5 = .ok false
    ∧ loadEntry 2 (saveEntry StoreState.empty entPlain).2 5
        entPlain.level entPlain.id
      = (some entPlain, (saveEntry StoreState.empty entPlain).2) :=
  ⟨rfl, c7_amended StoreState.empty entPlain 5 rfl⟩

/-- Claim C8, counterexample.  The final pass sorts by the raw ISO timestamp
string (`sorted(results, key=lambda e: e.timestamp, reverse=True)`), not by
the creation instant: two live session-S1 entries created 3 and 5 seconds
after the epoch, stored in the offset form 01:00:03+01:00 and the trailing-Z
form 00:00:05Z, come back with the chronologically earlier entry first,
because the string starting 1970-01-01T01 compares above the string starting
1970-01-01T00.  The returned sequence is ascending, not descending, by
created_at. -/
theorem c8_counterexample :
    (queryApi (runOps [.put entIsoZulu, .put entIsoOffset]) 0 "S1" none
      none).1 = [entIsoOffset, entIsoZulu]
    ∧ entIsoOffset.timestamp.time < entIsoZulu.timestamp.time := by
  decide

/-- Claim C8, amended.  Every sequence returned by the modelled query path
(session selection, with the level and since post-filters) is ordered
descending by the raw ISO-8601 timestamp string under lexicographic string
comparison — the actual sort key of the code.  This agrees with descending
created_at exactly when the stored timestamps share one format (one offset
representation, one precision), as in the concrete scenario of three
session-S1 entries with uniform offset-naive timestamps at seconds
1 < 2 < 3, returned in the order 3, 2, 1; for mixed formats the string
order can contradict the chronological order, as the counterexample
shows. -/
theorem c8_amended :
    (∀ (s : StoreState) (now : Int) (sid : String) (lvlF : Option MemoryLevel)
        (sinceF : Option Int),
      List.Pairwise
        (fun a b : MemoryEntry =>
          strLe b.timestamp.raw a.timestamp.raw = true)
        (queryApi s now sid lvlF sinceF).1)
    ∧ (queryApi (runOps [
        .put (entSession "i1" 1 "1970-01-01T00:00:01"),
        .put (entSession "i2" 2 "1970-01-01T00:00:02"),
        .put (entSession "i3" 3 "1970-01-01T00:00:03")]) 0 "S1" none none).1
      = [entSession "i3" 3 "1970-01-01T00:00:03",
         entSession "i2" 2 "1970-01-01T00:00:02",
         entSession "i1" 1 "1970-01-01T00:00:01"] := by
  constructor
  · intro s now sid lvlF sinceF
    exact sorted_sortByTimestampDesc _
  · decide

/-- Claim C9.  Enum values are validated at construction: building a
`SourceType` or `MemoryLevel` from a string succeeds exactly for the known
enum values and raises `ValueError` otherwise, with no storage involved; and
`save_entry` never fails on well-typed in-memory data (its result is always
success in the absence of medium failures, modelled separately). -/
theorem c9_validation :
    (∀ v : String, (∃ t, SourceType.fromString v = .ok t)
        ↔ (v = "chat" ∨ v = "agent" ∨ v = "function" ∨ v = "api"))
    ∧ (∀ v : String, (∃ l, MemoryLevel.fromString v = .ok l)
        ↔ (v = "immediate" ∨ v = "working" ∨ v = "longterm"))
    ∧ (∀ (s : StoreState) (e : MemoryEntry), (saveEntry s e).1 = true) := by
  refine ⟨?_, ?_, ?_⟩
  · intro v
    constructor
    · intro ht
      obtain ⟨t, ht⟩ := ht
      simp only [SourceType.fromString] at ht
      split_ifs at ht with h1 h2 h3 h4
      · exact Or.inl h1
      · exact Or.inr (Or.inl h2)
      · exact Or.inr (Or.inr (Or.inl h3))
      · exact Or.inr (Or.inr (Or.inr h4))
    · rintro (h | h | h | h) <;> subst h <;> exact ⟨_, rfl⟩
  · intro v
    constructor
    · intro hl
      obtain ⟨l, hl⟩ := hl
      simp only [MemoryLevel.fromString] at hl
      split_ifs at hl with h1 h2 h3
      · exact Or.inl h1
      · exact Or.inr (Or.inl h2)
      · exact Or.inr (Or.inr h3)
    · rintro (h | h | h) <;> subst h <;> exact ⟨_, rfl⟩
  · intro s e
    rfl

/-- Claim C10.  A ttl of 0 is falsy in `if not self.ttl`, so such an entry
never expires: `is_expired` is false at every time, identical to an absent
ttl, and `load_entry` returns the stored entry unchanged no matter how much
time has passed. -/
theorem c10_zero_ttl (s : StoreState) (now : Int) (lvl : MemoryLevel)
    (id : String) (e : MemoryEntry) (hz : e.ttl = some 0)
    (hrec : recGet s.records lvl id = some e) :
    e.isExpired now = .ok false
    ∧ MemoryEntry.isExpired { e with ttl := none } now = .ok false
    ∧ loadEntry 2 s now lvl id = (some e, s) := by
  have h1 : e.isExpired now = .ok false := by
    rw [MemoryEntry.isExpired, hz]
    simp
  exact ⟨h1, rfl, loadEntry_two_live s now lvl id e hrec h1⟩

/-- Witness for the zero-ttl claim at a concrete input: the zero-ttl entry is
still returned a million seconds after creation. -/
theorem c10_zero_ttl_witness :
    entZeroTtl.ttl = some 0
    ∧ recGet (saveEntry StoreState.empty entZeroTtl).2.records
        MemoryLevel.immediate "e1" = some entZeroTtl
    ∧ loadEntry 2 (saveEntry StoreState.empty entZeroTtl).2 1000000
        MemoryLevel.immediate "e1"
      = (some entZeroTtl, (saveEntry StoreState.empty entZeroTtl).2) :=
  ⟨rfl, by decide,
    (c10_zero_ttl (saveEntry StoreState.empty entZeroTtl).2 1000000
      MemoryLevel.immediate "e1" entZeroTtl rfl (by decide)).2.2⟩

/-- Claim C1, counterexample.  Index consistency fails: after put, put
(overwrite of the same entry), delete, the source index still lists the id
while no level resolves it to any entry (delete removes only the first of
the two appended occurrences before unlinking the record). -/
theorem c1_counterexample :
    idxList (runOps [.put entPlain, .put entPlain,
        .del 0 MemoryLevel.immediate "e1"]).sources (sourceKey entPlain)
      = ["e1"]
    ∧ (resolveId (runOps [.put entPlain, .put entPlain,
        .del 0 MemoryLevel.immediate "e1"]) 0 "e1").1 = none := by
  decide

/-- Claim C1, amended.  The direction the code does maintain: after any
sequence of put, delete and expiry-triggering get operations from a fresh
store, every stored record has its id present in the session index under its
session key (when set and nonempty), in the tag index under each of its
meta tags, and in the source index under its source key.  The converse
direction of the original claim (no stale ids for deleted, overwritten or
expired entries) is refuted by the counterexample. -/
theorem c1_amended (ops : List Op) :
    ∀ p ∈ (runOps ops).records,
      (∀ k, sessionKeyOf p.2 = some k → p.2.id ∈ idxList (runOps ops).sessions k)
      ∧ (∀ t, t ∈ p.2.data.metaTags → p.2.id ∈ idxList (runOps ops).tags t)
      ∧ p.2.id ∈ idxList (runOps ops).sources (sourceKey p.2) := by
  intro p hp
  obtain ⟨hwf, hnd, hsess, htags, hsrc⟩ := InvC_run ops
  have hid : p.1.2 = p.2.id := hwf p hp
  refine ⟨?_, ?_, ?_⟩
  · intro k hk
    have hm : keyMultSessions p.2 k = 1 := by simp [keyMultSessions, hk]
    have h1 := le_reqCount_of_mem (runOps ops).records keyMultSessions k
      p.2.id p hp hid
    have h2 := hsess k p.2.id
    apply occCount_pos_mem
    show 1 ≤ idxCount (runOps ops).sessions k p.2.id
    omega
  · intro t ht
    have hm : 1 ≤ keyMultTags p.2 t := occCount_pos_of_mem _ _ ht
    have h1 := le_reqCount_of_mem (runOps ops).records keyMultTags t
      p.2.id p hp hid
    have h2 := htags t p.2.id
    apply occCount_pos_mem
    show 1 ≤ idxCount (runOps ops).tags t p.2.id
    omega
  · have hm : keyMultSources p.2 (sourceKey p.2) = 1 := by simp [keyMultSources]
    have h1 := le_reqCount_of_mem (runOps ops).records keyMultSources
      (sourceKey p.2) p.2.id p hp hid
    have h2 := hsrc (sourceKey p.2) p.2.id
    apply occCount_pos_mem
    show 1 ≤ idxCount (runOps ops).sources (sourceKey p.2) p.2.id
    omega

/-- Witness for the amended index-consistency claim at a concrete input. -/
theorem c1_amended_witness :
    ((MemoryLevel.immediate, "e1"), entPlain) ∈ (runOps [.put entPlain]).records
    ∧ "e1" ∈ idxList (runOps [.put entPlain]).sources (sourceKey entPlain) :=
  ⟨by decide,
    (c1_amended [.put entPlain] ((MemoryLevel.immediate, "e1"), entPlain)
      (by decide)).2.2⟩

/-- Helper: the per-key occurrence bounds that a live record guarantees for
its own index keys. -/
theorem removeHyps (s : StoreState) (lvl : MemoryLevel) (id : String)
    (e : MemoryEntry) (h : InvC s) (hrec : recGet s.records lvl id = some e) :
    (∀ k, keyMultSessions e k ≤ idxCount s.sessions k e.id)
    ∧ (∀ k, keyMultTags e k ≤ idxCount s.tags k e.id)
    ∧ (∀ k, keyMultSources e k ≤ idxCount s.sources k e.id) := by
  have hid : e.id = id := (h.1 _ (recGet_mem _ _ _ _ hrec)).symm
  refine ⟨?_, ?_, ?_⟩
  · intro k
    rw [hid]
    exact le_trans
      (le_reqCount_of_mem s.records keyMultSessions k id _
        (recGet_mem _ _ _ _ hrec) rfl)
      (h.2.2.1 k id)
  · intro k
    rw [hid]
    exact le_trans
      (le_reqCount_of_mem s.records keyMultTags k id _
        (recGet_mem _ _ _ _ hrec) rfl)
      (h.2.2.2.1 k id)
  · intro k
    rw [hid]
    exact le_trans
      (le_reqCount_of_mem s.records keyMultSources k id _
        (recGet_mem _ _ _ _ hrec) rfl)
      (h.2.2.2.2 k id)

/-- Helper: after a delete at fuel 2 from an invariant-satisfying state, the
record at the deleted location is gone. -/
theorem recGet_after_delete (s : StoreState) (now : Int) (lvl : MemoryLevel)
    (id : String) (h : InvC s) :
    recGet (deleteEntry 2 s now lvl id).2.records lvl id = none := by
  cases hrec : recGet s.records lvl id with
  | none => rw [deleteEntry_two_none s now lvl id hrec]; exact hrec
  | some e =>
    cases hexp : e.isExpired now with
    | error u =>
      cases u
      rw [deleteEntry_two_err s now lvl id e hrec hexp]
      exact recGet_recDel_self s.records lvl id h.2.1
    | ok b =>
      cases b
      · obtain ⟨hs1, hs2, hs3⟩ := removeHyps s lvl id e h hrec
        obtain ⟨s2, hok, hrecs, _, _, _⟩ := updateIndicesRemove_ok e s hs1 hs2 hs3
        rw [deleteEntry_two_live s now lvl id e hrec hexp, hok]
        show recGet (recDel s2.records lvl id) lvl id = none
        rw [hrecs]
        exact recGet_recDel_self s.records lvl id h.2.1
      · rw [deleteEntry_two_expired s now lvl id e hrec hexp]
        exact recGet_recDel_self s.records lvl id h.2.1

/-- Claim C5, amended.  Delete is idempotent in result and repeat effect on
every state reachable from a fresh store: both of two successive delete calls
return success, and the second call changes nothing.  The part of the
original claim that the first call removes the id from every index entry
referencing it is refuted by the counterexample: only one occurrence per key
of the current record value is removed. -/
theorem c5_amended (ops : List Op) (now : Int) (lvl : MemoryLevel)
    (id : String) :
    (deleteEntry 2 (runOps ops) now lvl id).1 = true
    ∧ (deleteEntry 2 (deleteEntry 2 (runOps ops) now lvl id).2 now lvl id).1
        = true
    ∧ (deleteEntry 2 (deleteEntry 2 (runOps ops) now lvl id).2 now lvl id).2
        = (deleteEntry 2 (runOps ops) now lvl id).2 := by
  have hI := InvC_run ops
  have habs := recGet_after_delete (runOps ops) now lvl id hI
  have h2 := deleteEntry_two_none (deleteEntry 2 (runOps ops) now lvl id).2
    now lvl id habs
  exact ⟨(InvC_delete (runOps ops) now lvl id hI).1, by rw [h2], by rw [h2]⟩

/-- Claim C5, counterexample.  Save with tag A, overwrite the same
(level, id) with tag B, then delete: the delete returns success and removes
the record, but the tag index key A still references the deleted id, so the
id was not removed from every index entry referencing it. -/
theorem c5_counterexample :
    (deleteEntry 2 (runOps [.put entPlain, .put entPlainB]) 0
      MemoryLevel.immediate "e1").1 = true
    ∧ (deleteEntry 2 (runOps [.put entPlain, .put entPlainB]) 0
      MemoryLevel.immediate "e1").2.records = []
    ∧ idxList (deleteEntry 2 (runOps [.put entPlain, .put entPlainB]) 0
      MemoryLevel.immediate "e1").2.tags "A" = ["e1"] := by
  decide

/-!
Pair-level index membership lemmas for the failure analysis.
-/

theorem idxGet_mem (m : IndexMap) (k : String) (l : List String)
    (h : idxGet m k = some l) : (k, l) ∈ m := by
  induction m with
  | nil => simp [idxGet] at h
  | cons p rest ih =>
    by_cases hp : p.1 = k
    · rw [idxGet, if_pos hp] at h
      have hpl : p = (k, l) := by
        cases p with
        | mk a b =>
          simp at hp ⊢
          exact ⟨hp, Option.some.inj h⟩
      simp [← hpl]
    · rw [idxGet, if_neg hp] at h
      exact List.mem_cons_of_mem _ (ih h)

theorem mem_idxSet (m : IndexMap) (k : String) (v : List String)
    (p : String × List String) (h : p ∈ idxSet m k v) : p = (k, v) ∨ p ∈ m := by
  induction m with
  | nil => rw [idxSet] at h; exact Or.inl (List.mem_singleton.mp h)
  | cons q rest ih =>
    by_cases hq : q.1 = k
    · rw [idxSet, if_pos hq] at h
      rcases List.mem_cons.mp h with h1 | h2
      · exact Or.inl h1
      · exact Or.inr (List.mem_cons_of_mem _ h2)
    · rw [idxSet, if_neg hq] at h
      rcases List.mem_cons.mp h with h1 | h2
      · exact Or.inr (by simp [h1])
      · rcases ih h2 with h3 | h4
        · exact Or.inl h3
        · exact Or.inr (List.mem_cons_of_mem _ h4)

theorem idInIndexMap_iff (m : IndexMap) (x : String) :
    idInIndexMap m x = true ↔ ∃ p ∈ m, x ∈ p.2 := by
  rw [idInIndexMap, List.any_eq_true]
  constructor
  · rintro ⟨p, hp, hx⟩
    exact ⟨p, hp, of_decide_eq_true hx⟩
  · rintro ⟨p, hp, hx⟩
    exact ⟨p, hp, decide_eq_true hx⟩

theorem memSubIdx_refl (m : IndexMap) : memSubIdx m m := fun _ hx => hx

theorem memSubIdx_idxRemove (m m2 : IndexMap) (k id : String)
    (h : idxRemove m k id = some m2) : memSubIdx m2 m := by
  intro x hx
  rw [idInIndexMap_iff] at hx ⊢
  obtain ⟨p, hp, hxp⟩ := hx
  unfold idxRemove at h
  cases hg : idxGet m k with
  | none =>
    rw [hg] at h
    simp at h
    subst h
    exact ⟨p, hp, hxp⟩
  | some l =>
    rw [hg] at h
    simp at h
    obtain ⟨l2, hrf, hm2⟩ := h
    subst hm2
    rcases mem_idxSet m k l2 p hp with h1 | h2
    · refine ⟨(k, l), idxGet_mem m k l hg, ?_⟩
      have hxl2 : x ∈ l2 := by rw [h1] at hxp; exact hxp
      exact removeFirst_mem_sub l l2 id hrf x hxl2
    · exact ⟨p, h2, hxp⟩

theorem memSubIdx_removeTags (ts : List String) (m m2 : IndexMap) (id : String)
    (h : removeTags m ts id = some m2) : memSubIdx m2 m := by
  induction ts generalizing m with
  | nil =>
    rw [removeTags] at h
    simp at h
    subst h
    exact memSubIdx_refl m
  | cons t rest ih =>
    rw [removeTags] at h
    cases hrm : idxRemove m t id with
    | none => rw [hrm] at h; simp at h
    | some m1 =>
      rw [hrm] at h
      simp at h
      intro x hx
      exact memSubIdx_idxRemove m m1 t id hrm x (ih m1 h x hx)

theorem mem_idxAdd (m : IndexMap) (k id x : String)
    (h : idInIndexMap (idxAdd m k id) x = true) :
    x = id ∨ idInIndexMap m x = true := by
  rw [idInIndexMap_iff] at h
  obtain ⟨p, hp, hxp⟩ := h
  unfold idxAdd at hp
  cases hg : idxGet m k with
  | none =>
    rw [hg] at hp
    rcases mem_idxSet m k [id] p hp with h1 | h2
    · rw [h1] at hxp
      exact Or.inl (List.mem_singleton.mp hxp)
    · exact Or.inr ((idInIndexMap_iff m x).mpr ⟨p, h2, hxp⟩)
  | some l =>
    rw [hg] at hp
    rcases mem_idxSet m k (l ++ [id]) p hp with h1 | h2
    · rw [h1] at hxp
      rcases List.mem_append.mp hxp with h3 | h4
      · exact Or.inr ((idInIndexMap_iff m x).mpr ⟨(k, l), idxGet_mem m k l hg, h3⟩)
      · exact Or.inl (List.mem_singleton.mp h4)
    · exact Or.inr ((idInIndexMap_iff m x).mpr ⟨p, h2, hxp⟩)

theorem mem_addTags (ts : List String) (m : IndexMap) (id x : String)
    (h : idInIndexMap (addTags m ts id) x = true) :
    x = id ∨ idInIndexMap m x = true := by
  induction ts generalizing m with
  | nil => exact Or.inr h
  | cons t rest ih =>
    rw [addTags] at h
    rcases ih (idxAdd m t id) h with h1 | h2
    · exact Or.inl h1
    · exact mem_idxAdd m t id x h2

/-!
State analysis of the failure-injected index updates.
-/

theorem updateIndicesAddF_sub (sched : Sched) (k : Nat) (e : MemoryEntry)
    (s : StoreState) (k2 : Nat) (s2 : StoreState)
    (h : updateIndicesAddF sched k e s = .ok (k2, s2)
       ∨ updateIndicesAddF sched k e s = .error (k2, s2)) :
    s2.records = s.records
    ∧ (∀ x, idInIndexMap s2.sessions x = true
        → x = e.id ∨ idInIndexMap s.sessions x = true)
    ∧ (∀ x, idInIndexMap s2.tags x = true
        → x = e.id ∨ idInIndexMap s.tags x = true)
    ∧ (∀ x, idInIndexMap s2.sources x = true
        → x = e.id ∨ idInIndexMap s.sources x = true) := by
  generalize hr : updateIndicesAddF sched k e s = r at h
  unfold updateIndicesAddF at hr
  have hsess : ∀ x, idInIndexMap (match sessionKeyOf e with
      | some key => idxAdd s.sessions key e.id
      | none => s.sessions) x = true
      → x = e.id ∨ idInIndexMap s.sessions x = true := by
    cases hsk : sessionKeyOf e with
    | none => intro x hx; exact Or.inr hx
    | some key => intro x hx; exact mem_idxAdd s.sessions key e.id x hx
  split_ifs at hr with h0 h1 h2 h3 h4 h5 <;>
    subst hr <;>
    rcases h with h | h <;>
    simp at h <;>
    obtain ⟨hk2, hs⟩ := h <;>
    subst hs
  · exact ⟨rfl, fun x hx => Or.inr hx, fun x hx => Or.inr hx,
      fun x hx => Or.inr hx⟩
  · exact ⟨rfl, fun x hx => Or.inr hx, fun x hx => Or.inr hx,
      fun x hx => Or.inr hx⟩
  · exact ⟨rfl, hsess, fun x hx => Or.inr hx, fun x hx => Or.inr hx⟩
  · exact ⟨rfl, hsess, fun x hx => Or.inr hx, fun x hx => Or.inr hx⟩
  · exact ⟨rfl, hsess, fun x hx => mem_addTags _ _ _ _ hx,
      fun x hx => Or.inr hx⟩
  · exact ⟨rfl, hsess, fun x hx => mem_addTags _ _ _ _ hx,
      fun x hx => Or.inr hx⟩
  · exact ⟨rfl, hsess, fun x hx => mem_addTags _ _ _ _ hx,
      fun x hx => mem_idxAdd _ _ _ _ hx⟩

theorem updateIndicesRemoveF_sub (sched : Sched) (k : Nat) (e : MemoryEntry)
    (s : StoreState) (k2 : Nat) (s2 : StoreState)
    (h : updateIndicesRemoveF sched k e s = .ok (k2, s2)
       ∨ updateIndicesRemoveF sched k e s = .error (k2, s2)) :
    s2.records = s.records ∧ memSubIdx s2.sessions s.sessions
      ∧ memSubIdx s2.tags s.tags ∧ memSubIdx s2.sources s.sources := by
  generalize hr : updateIndicesRemoveF sched k e s = r at h
  unfold updateIndicesRemoveF at hr
  cases hsk : sessionKeyOf e with
  | none =>
    simp only [hsk] at hr
    cases hrt : removeTags s.tags e.data.metaTags e.id with
    | none =>
      simp only [hrt] at hr
      split_ifs at hr with h0 h1 h2 <;> subst hr <;> rcases h with h | h <;>
        simp at h <;> obtain ⟨hk2, hs⟩ := h <;> subst hs
      · exact ⟨rfl, memSubIdx_refl _, memSubIdx_refl _, memSubIdx_refl _⟩
      · exact ⟨rfl, memSubIdx_refl _, memSubIdx_refl _, memSubIdx_refl _⟩
      · exact ⟨rfl, memSubIdx_refl _, memSubIdx_refl _, memSubIdx_refl _⟩
      · exact ⟨rfl, memSubIdx_refl _, memSubIdx_refl _, memSubIdx_refl _⟩
    | some tg =>
      have hsub2 : memSubIdx tg s.tags := memSubIdx_removeTags _ _ _ _ hrt
      simp only [hrt] at hr
      cases hrs : idxRemove s.sources (sourceKey e) e.id with
      | none =>
        simp only [hrs] at hr
        split_ifs at hr with h0 h1 h2 h3 h4 <;> subst hr <;>
          rcases h with h | h <;> simp at h <;> obtain ⟨hk2, hs⟩ := h <;>
          subst hs
        · exact ⟨rfl, memSubIdx_refl _, memSubIdx_refl _, memSubIdx_refl _⟩
        · exact ⟨rfl, memSubIdx_refl _, memSubIdx_refl _, memSubIdx_refl _⟩
        · exact ⟨rfl, memSubIdx_refl _, memSubIdx_refl _, memSubIdx_refl _⟩
        · exact ⟨rfl, memSubIdx_refl _, memSubIdx_refl _, memSubIdx_refl _⟩
        · exact ⟨rfl, memSubIdx_refl _, hsub2, memSubIdx_refl _⟩
        · exact ⟨rfl, memSubIdx_refl _, hsub2, memSubIdx_refl _⟩
      | some src =>
        have hsub3 : memSubIdx src s.sources := memSubIdx_idxRemove _ _ _ _ hrs
        simp only [hrs] at hr
        split_ifs at hr with h0 h1 h2 h3 h4 h5 <;> subst hr <;>
          rcases h with h | h <;> simp at h <;> obtain ⟨hk2, hs⟩ := h <;>
          subst hs
        · exact ⟨rfl, memSubIdx_refl _, memSubIdx_refl _, memSubIdx_refl _⟩
        · exact ⟨rfl, memSubIdx_refl _, memSubIdx_refl _, memSubIdx_refl _⟩
        · exact ⟨rfl, memSubIdx_refl _, memSubIdx_refl _, memSubIdx_refl _⟩
        · exact ⟨rfl, memSubIdx_refl _, memSubIdx_refl _, memSubIdx_refl _⟩
        · exact ⟨rfl, memSubIdx_refl _, hsub2, memSubIdx_refl _⟩
        · exact ⟨rfl, memSubIdx_refl _, hsub2, memSubIdx_refl _⟩
        · exact ⟨rfl, memSubIdx_refl _, hsub2, hsub3⟩
  | some key =>
    simp only [hsk] at hr
    cases hrm : idxRemove s.sessions key e.id with
    | none =>
      simp only [hrm] at hr
      split_ifs at hr with h0 <;> subst hr <;> rcases h with h | h <;>
        simp at h <;> obtain ⟨hk2, hs⟩ := h <;> subst hs
      · exact ⟨rfl, memSubIdx_refl _, memSubIdx_refl _, memSubIdx_refl _⟩
      · exact ⟨rfl, memSubIdx_refl _, memSubIdx_refl _, memSubIdx_refl _⟩
    | some sess =>
      have hsub1 : memSubIdx sess s.sessions := memSubIdx_idxRemove _ _ _ _ hrm
      simp only [hrm] at hr
      cases hrt : removeTags s.tags e.data.metaTags e.id with
      | none =>
        simp only [hrt] at hr
        split_ifs at hr with h0 h1 h2 <;> subst hr <;> rcases h with h | h <;>
          simp at h <;> obtain ⟨hk2, hs⟩ := h <;> subst hs
        · exact ⟨rfl, memSubIdx_refl _, memSubIdx_refl _, memSubIdx_refl _⟩
        · exact ⟨rfl, memSubIdx_refl _, memSubIdx_refl _, memSubIdx_refl _⟩
        · exact ⟨rfl, hsub1, memSubIdx_refl _, memSubIdx_refl _⟩
        · exact ⟨rfl, hsub1, memSubIdx_refl _, memSubIdx_refl _⟩
      | some tg =>
        have hsub2 : memSubIdx tg s.tags := memSubIdx_removeTags _ _ _ _ hrt
        simp only [hrt] at hr
        cases hrs : idxRemove s.sources (sourceKey e) e.id with
        | none =>
          simp only [hrs] at hr
          split_ifs at hr with h0 h1 h2 h3 h4 <;> subst hr <;>
            rcases h with h | h <;> simp at h <;> obtain ⟨hk2, hs⟩ := h <;>
            subst hs
          · exact ⟨rfl, memSubIdx_refl _, memSubIdx_refl _, memSubIdx_refl _⟩
          · exact ⟨rfl, memSubIdx_refl _, memSubIdx_refl _, memSubIdx_refl _⟩
          · exact ⟨rfl, hsub1, memSubIdx_refl _, memSubIdx_refl _⟩
          · exact ⟨rfl, hsub1, memSubIdx_refl _, memSubIdx_refl _⟩
          · exact ⟨rfl, hsub1, hsub2, memSubIdx_refl _⟩
          · exact ⟨rfl, hsub1, hsub2, memSubIdx_refl _⟩
        | some src =>
          have hsub3 : memSubIdx src s.sources := memSubIdx_idxRemove _ _ _ _ hrs
          simp only [hrs] at hr
          split_ifs at hr with h0 h1 h2 h3 h4 h5 <;> subst hr <;>
            rcases h with h | h <;> simp at h <;> obtain ⟨hk2, hs⟩ := h <;>
            subst hs
          · exact ⟨rfl, memSubIdx_refl _, memSubIdx_refl _, memSubIdx_refl _⟩
          · exact ⟨rfl, memSubIdx_refl _, memSubIdx_refl _, memSubIdx_refl _⟩
          · exact ⟨rfl, hsub1, memSubIdx_refl _, memSubIdx_refl _⟩
          · exact ⟨rfl, hsub1, memSubIdx_refl _, memSubIdx_refl _⟩
          · exact ⟨rfl, hsub1, hsub2, memSubIdx_refl _⟩
          · exact ⟨rfl, hsub1, hsub2, memSubIdx_refl _⟩
          · exact ⟨rfl, hsub1, hsub2, hsub3⟩

/-!
Characterisation of the failure-injected load and delete pair.
-/

theorem loadEntryF_zero (sched : Sched) (k : Nat) (s : StoreState) (now : Int)
    (lvl : MemoryLevel) (id : String) :
    loadEntryF sched 0 k s now lvl id = (none, k, s) := rfl

theorem deleteEntryF_zero (sched : Sched) (k : Nat) (s : StoreState)
    (now : Int) (lvl : MemoryLevel) (id : String) :
    deleteEntryF sched 0 k s now lvl id = (false, k, s) := rfl

theorem loadEntryF_succ (sched : Sched) (f k : Nat) (s : StoreState)
    (now : Int) (lvl : MemoryLevel) (id : String) :
    loadEntryF sched (f + 1) k s now lvl id
      = match recGet s.records lvl id with
        | none => (none, k, s)
        | some e =>
          if sched k then (none, k + 1, s)
          else
            match e.isExpired now with
            | .error _ => (none, k + 1, s)
            | .ok true =>
              let r := deleteEntryF sched f (k + 1) s now lvl id
              (none, r.2.1, r.2.2)
            | .ok false => (some e, k + 1, s) := rfl

theorem deleteEntryF_succ (sched : Sched) (f k : Nat) (s : StoreState)
    (now : Int) (lvl : MemoryLevel) (id : String) :
    deleteEntryF sched (f + 1) k s now lvl id
      = match loadEntryF sched f k s now lvl id with
        | (some e, k1, s1) =>
          match updateIndicesRemoveF sched k1 e s1 with
          | .ok (k2, s2) =>
            if (recGet s2.records lvl id).isSome then
              if sched k2 then (false, k2 + 1, s2)
              else (true, k2 + 1, { s2 with records := recDel s2.records lvl id })
            else (true, k2, s2)
          | .error (k2, s2) => (false, k2, s2)
        | (none, k1, s1) =>
          if (recGet s1.records lvl id).isSome then
            if sched k1 then (false, k1 + 1, s1)
            else (true, k1 + 1, { s1 with records := recDel s1.records lvl id })
          else (true, k1, s1) := rfl

theorem loadDeleteF_char (sched : Sched) (now : Int) (lvl : MemoryLevel)
    (id : String) : ∀ fuel : Nat,
    (∀ k s, (s.records.map Prod.fst).Nodup →
      (∃ k2, loadEntryF sched fuel k s now lvl id = (none, k2, s)
        ∨ loadEntryF sched fuel k s now lvl id
            = (none, k2, { s with records := recDel s.records lvl id }))
      ∨ (∃ k2 e, loadEntryF sched fuel k s now lvl id = (some e, k2, s)
          ∧ recGet s.records lvl id = some e ∧ e.isExpired now = .ok false))
    ∧ (∀ k s, (s.records.map Prod.fst).Nodup →
        (∀ e, recGet s.records lvl id = some e → e.isExpired now ≠ .ok false) →
        ∃ k2 b, deleteEntryF sched fuel k s now lvl id = (b, k2, s)
          ∨ deleteEntryF sched fuel k s now lvl id
              = (b, k2, { s with records := recDel s.records lvl id })) := by
  intro fuel
  induction fuel with
  | zero =>
    constructor
    · intro k s _
      exact Or.inl ⟨k, Or.inl rfl⟩
    · intro k s _ _
      exact ⟨k, false, Or.inl rfl⟩
  | succ fuel ih =>
    constructor
    · intro k s hnd
      cases hrec : recGet s.records lvl id with
      | none =>
        exact Or.inl ⟨k, Or.inl (by rw [loadEntryF_succ, hrec])⟩
      | some e =>
        cases hs0 : sched k with
        | true =>
          exact Or.inl ⟨k + 1, Or.inl
            (by rw [loadEntryF_succ, hrec]; simp [hs0])⟩
        | false =>
          cases hexp : e.isExpired now with
          | error u =>
            cases u
            exact Or.inl ⟨k + 1, Or.inl
              (by rw [loadEntryF_succ, hrec]; simp [hs0, hexp])⟩
          | ok b =>
            cases b
            · refine Or.inr ⟨k + 1, e, ?_, rfl, hexp⟩
              rw [loadEntryF_succ, hrec]
              simp [hs0, hexp]
            · have hH : ∀ e2, recGet s.records lvl id = some e2 →
                  e2.isExpired now ≠ .ok false := by
                intro e2 he2 hcontra
                rw [hrec] at he2
                have he : e = e2 := Option.some.inj he2
                rw [← he, hexp] at hcontra
                simp at hcontra
              obtain ⟨k2, b2, hd⟩ := ih.2 (k + 1) s hnd hH
              rcases hd with hd | hd
              · exact Or.inl ⟨k2, Or.inl
                  (by rw [loadEntryF_succ, hrec]; simp [hs0, hexp, hd])⟩
              · exact Or.inl ⟨k2, Or.inr
                  (by rw [loadEntryF_succ, hrec]; simp [hs0, hexp, hd])⟩
    · intro k s hnd hH
      rcases ih.1 k s hnd with ⟨k2, hl | hl⟩ | ⟨k2, e, hl, hrec, hexp⟩
      · cases hg : recGet s.records lvl id with
        | none =>
          refine ⟨k2, true, Or.inl ?_⟩
          rw [deleteEntryF_succ, hl]
          simp [hg]
        | some e2 =>
          cases hs1 : sched k2 with
          | true =>
            refine ⟨k2 + 1, false, Or.inl ?_⟩
            rw [deleteEntryF_succ, hl]
            simp [hg, hs1]
          | false =>
            refine ⟨k2 + 1, true, Or.inr ?_⟩
            rw [deleteEntryF_succ, hl]
            simp [hg, hs1]
      · have hg2 : recGet ({ s with records := recDel s.records lvl id }
            : StoreState).records lvl id = none :=
          recGet_recDel_self s.records lvl id hnd
        refine ⟨k2, true, Or.inr ?_⟩
        rw [deleteEntryF_succ, hl]
        simp [hg2]
      · exact absurd hexp (hH e hrec)

theorem MemoryLevel.mem_all (l : MemoryLevel) : l ∈ MemoryLevel.all := by
  cases l <;> simp [MemoryLevel.all]

theorem idInAnyIndex_sub (s3 s : StoreState)
    (h1 : memSubIdx s3.sessions s.sessions) (h2 : memSubIdx s3.tags s.tags)
    (h3 : memSubIdx s3.sources s.sources) :
    ∀ x, idInAnyIndex s3 x = true → idInAnyIndex s x = true := by
  intro x hx
  rw [idInAnyIndex] at hx ⊢
  simp only [Bool.or_eq_true] at hx ⊢
  rcases hx with (h | h) | h
  · exact Or.inl (Or.inl (h1 x h))
  · exact Or.inl (Or.inr (h2 x h))
  · exact Or.inr (h3 x h)

theorem deleteEntryF_false (sched : Sched) (fuel k : Nat) (s : StoreState)
    (now : Int) (lvl : MemoryLevel) (id : String)
    (hnd : (s.records.map Prod.fst).Nodup)
    (hf : (deleteEntryF sched fuel k s now lvl id).1 = false) :
    (deleteEntryF sched fuel k s now lvl id).2.2.records = s.records
    ∧ ∀ x, idInAnyIndex (deleteEntryF sched fuel k s now lvl id).2.2 x = true
        → idInAnyIndex s x = true := by
  cases fuel with
  | zero =>
    rw [deleteEntryF_zero]
    exact ⟨rfl, fun x hx => hx⟩
  | succ fuel =>
    rcases (loadDeleteF_char sched now lvl id fuel).1 k s hnd with
      ⟨k2, hl | hl⟩ | ⟨k2, e, hl, hrec, hexp⟩
    · cases hg : recGet s.records lvl id with
      | none =>
        have hD : deleteEntryF sched (fuel + 1) k s now lvl id = (true, k2, s) := by
          rw [deleteEntryF_succ, hl]
          simp [hg]
        rw [hD] at hf
        simp at hf
      | some e2 =>
        cases hs1 : sched k2 with
        | false =>
          have hD : (deleteEntryF sched (fuel + 1) k s now lvl id).1 = true := by
            rw [deleteEntryF_succ, hl]
            simp [hg, hs1]
          rw [hD] at hf
          simp at hf
        | true =>
          have hD : deleteEntryF sched (fuel + 1) k s now lvl id
              = (false, k2 + 1, s) := by
            rw [deleteEntryF_succ, hl]
            simp [hg, hs1]
          rw [hD]
          exact ⟨rfl, fun x hx => hx⟩
    · have hg2 : recGet ({ s with records := recDel s.records lvl id }
          : StoreState).records lvl id = none :=
        recGet_recDel_self s.records lvl id hnd
      have hD : (deleteEntryF sched (fuel + 1) k s now lvl id).1 = true := by
        rw [deleteEntryF_succ, hl]
        simp [hg2]
      rw [hD] at hf
      simp at hf
    · cases hu : updateIndicesRemoveF sched k2 e s with
      | ok p =>
        obtain ⟨k3, s3⟩ := p
        have hsub := updateIndicesRemoveF_sub sched k2 e s k3 s3 (Or.inl hu)
        have hg3 : recGet s3.records lvl id = some e := by
          rw [hsub.1]
          exact hrec
        cases hs3 : sched k3 with
        | false =>
          have hD : (deleteEntryF sched (fuel + 1) k s now lvl id).1 = true := by
            rw [deleteEntryF_succ, hl]
            simp [hu, hg3, hs3]
          rw [hD] at hf
          simp at hf
        | true =>
          have hD : deleteEntryF sched (fuel + 1) k s now lvl id
              = (false, k3 + 1, s3) := by
            rw [deleteEntryF_succ, hl]
            simp [hu, hg3, hs3]
          rw [hD]
          exact ⟨hsub.1, idInAnyIndex_sub s3 s hsub.2.1 hsub.2.2.1 hsub.2.2.2⟩
      | error p =>
        obtain ⟨k3, s3⟩ := p
        have hsub := updateIndicesRemoveF_sub sched k2 e s k3 s3 (Or.inr hu)
        have hD : deleteEntryF sched (fuel + 1) k s now lvl id
            = (false, k3, s3) := by
          rw [deleteEntryF_succ, hl]
          simp [hu]
        rw [hD]
        exact ⟨hsub.1, idInAnyIndex_sub s3 s hsub.2.1 hsub.2.2.1 hsub.2.2.2⟩

theorem saveEntryF_dangling (sched : Sched) (k : Nat) (s : StoreState)
    (e : MemoryEntry) (x : String)
    (h : isDangling (saveEntryF sched k s e).2.2 x = true) :
    isDangling s x = true := by
  cases hs0 : sched k with
  | true =>
    have hD : (saveEntryF sched k s e).2.2 = s := by
      simp [saveEntryF, hs0]
    rw [hD] at h
    exact h
  | false =>
    have hcore : ∀ k2 s2,
        (updateIndicesAddF sched (k + 1) e
            { s with records := recSet s.records e.level e.id e } = .ok (k2, s2)
          ∨ updateIndicesAddF sched (k + 1) e
            { s with records := recSet s.records e.level e.id e } = .error (k2, s2)) →
        isDangling s2 x = true → isDangling s x = true := by
      intro k2 s2 hu h2
      have hsub := updateIndicesAddF_sub sched (k + 1) e _ k2 s2 hu
      rw [isDangling, Bool.and_eq_true] at h2
      obtain ⟨hin, hnrec⟩ := h2
      rw [Bool.not_eq_true'] at hnrec
      have hxne : x ≠ e.id := by
        intro hxe
        have hsome : (recGet s2.records e.level x).isSome = true := by
          rw [hsub.1]
          show (recGet (recSet s.records e.level e.id e) e.level x).isSome = true
          rw [hxe, recGet_recSet_self]
          rfl
        have htrue : recordSomewhere s2 x = true := by
          rw [recordSomewhere, List.any_eq_true]
          exact ⟨e.level, MemoryLevel.mem_all e.level, hsome⟩
        rw [hnrec] at htrue
        simp at htrue
      have hrg : ∀ l, recGet s2.records l x = recGet s.records l x := by
        intro l
        rw [hsub.1]
        show recGet (recSet s.records e.level e.id e) l x = recGet s.records l x
        exact recGet_recSet_other _ _ _ _ _ _ (fun hc => hxne hc.2)
      rw [isDangling, Bool.and_eq_true]
      constructor
      · rw [idInAnyIndex]
        rw [idInAnyIndex] at hin
        simp only [Bool.or_eq_true] at hin ⊢
        rcases hin with (hh | hh) | hh
        · rcases hsub.2.1 x hh with he | he
          · exact absurd he hxne
          · exact Or.inl (Or.inl he)
        · rcases hsub.2.2.1 x hh with he | he
          · exact absurd he hxne
          · exact Or.inl (Or.inr he)
        · rcases hsub.2.2.2 x hh with he | he
          · exact absurd he hxne
          · exact Or.inr he
      · rw [Bool.not_eq_true']
        rw [recordSomewhere]
        rw [recordSomewhere] at hnrec
        simp only [hrg] at hnrec
        exact hnrec
    cases hu : updateIndicesAddF sched (k + 1) e
        { s with records := recSet s.records e.level e.id e } with
    | ok p =>
      obtain ⟨k2, s2⟩ := p
      have hD : (saveEntryF sched k s e).2.2 = s2 := by
        simp [saveEntryF, hs0, hu]
      rw [hD] at h
      exact hcore k2 s2 (Or.inl hu) h
    | error p =>
      obtain ⟨k2, s2⟩ := p
      have hD : (saveEntryF sched k s e).2.2 = s2 := by
        simp [saveEntryF, hs0, hu]
      rw [hD] at h
      exact hcore k2 s2 (Or.inr hu) h

theorem saveEntryF_true_iff (sched : Sched) (k : Nat) (s : StoreState)
    (e : MemoryEntry) :
    (saveEntryF sched k s e).1 = true
      ↔ (sched k = false ∧ sched (k + 1) = false ∧ sched (k + 2) = false
        ∧ sched (k + 3) = false ∧ sched (k + 4) = false
        ∧ sched (k + 5) = false ∧ sched (k + 6) = false) := by
  simp only [saveEntryF, updateIndicesAddF]
  cases h0 : sched k <;> cases h1 : sched (k + 1) <;>
    cases h2 : sched (k + 2) <;> cases h3 : sched (k + 3) <;>
    cases h4 : sched (k + 4) <;> cases h5 : sched (k + 5) <;>
    cases h6 : sched (k + 6) <;> simp [h0, h1, h2, h3, h4, h5, h6]

/-- Claim C6, amended.  Under any injected medium-failure schedule: a put
never introduces an index reference to a missing record (any id dangling
after `save_entry` was already dangling before), because the record file is
written before any index file; a put reports success exactly when none of
its seven medium operations failed, so a put failure is always propagated;
and whenever delete reports failure it has removed no record and added no
index membership, so it leaves the system no more inconsistent than before.
The part of the original claim that delete propagates all failures and never
leaves an index entry without its record is refuted by the counterexample:
a swallowed read failure during delete unlinks the record, skips index
cleanup and still reports success. -/
theorem c6_amended (sched : Sched) (k : Nat) (s : StoreState) (e : MemoryEntry)
    (now : Int) (lvl : MemoryLevel) (id : String) (fuel : Nat)
    (hnd : (s.records.map Prod.fst).Nodup) :
    (∀ x, isDangling (saveEntryF sched k s e).2.2 x = true
      → isDangling s x = true)
    ∧ ((saveEntryF sched k s e).1 = true
      ↔ (sched k = false ∧ sched (k + 1) = false ∧ sched (k + 2) = false
        ∧ sched (k + 3) = false ∧ sched (k + 4) = false
        ∧ sched (k + 5) = false ∧ sched (k + 6) = false))
    ∧ ((deleteEntryF sched fuel k s now lvl id).1 = false →
        (deleteEntryF sched fuel k s now lvl id).2.2.records = s.records
        ∧ ∀ x, idInAnyIndex (deleteEntryF sched fuel k s now lvl id).2.2 x = true
            → idInAnyIndex s x = true) :=
  ⟨fun x hx => saveEntryF_dangling sched k s e x hx,
   saveEntryF_true_iff sched k s e,
   fun hf => deleteEntryF_false sched fuel k s now lvl id hnd hf⟩

/-- Witness for the amended storage-failure claim at a concrete input: a
pre-existing dangling reference survives a save, and remains attributed to
the original state. -/
theorem c6_amended_witness :
    (stateWithDangler.records.map Prod.fst).Nodup
    ∧ isDangling stateWithDangler "zz" = true :=
  ⟨by decide,
    (c6_amended schedOk 0 stateWithDangler entPlain 0 MemoryLevel.immediate
      "e1" 2 (by decide)).1 "zz" (by decide)⟩

/-- Claim C6, counterexample.  A read failure during delete is swallowed:
with the record present and indexed, a schedule failing exactly the first
medium operation (the record read inside the load that delete performs)
makes delete return success while unlinking the record and skipping all
index cleanup, leaving the id dangling in every index — the exact state the
error-handling contract forbids, with no failure reported. -/
theorem c6_counterexample :
    (deleteEntryF schedFailFirst 2 0 (saveEntry StoreState.empty entPlain).2 0
      MemoryLevel.immediate "e1").1 = true
    ∧ isDangling (deleteEntryF schedFailFirst 2 0
        (saveEntry StoreState.empty entPlain).2 0 MemoryLevel.immediate
        "e1").2.2 "e1" = true
    ∧ isDangling (saveEntry StoreState.empty entPlain).2 "e1" = false := by
  decide
